import Mathlib

/-!
Verification of the text-analysis and streaming-audio pipeline of the
Voicemybot browser extension (source file content.js).  Text is modelled
as lists of characters; JavaScript regular expressions are modelled by
explicit scanning functions; the asynchronous producer/consumer pair is
modelled by a step function on observed state and by a transition system
over session events.
-/

set_option maxRecDepth 4000

/-- JavaScript whitespace characters relevant to trimming and the regex
class backslash-s (space, tab, line feed, carriage return, vertical tab,
form feed). -/
def isWs (c : Char) : Bool :=
  c = ' ' || c = '\t' || c = '\n' || c = '\r' || c = '\x0b' || c = '\x0c'

/-- ASCII uppercase letter, the regex class A to Z. -/
def isUpperA (c : Char) : Bool :=
  'A' ≤ c && c ≤ 'Z'

/-- ASCII word character, the regex class backslash-w used by word
boundaries. -/
def isWordChar (c : Char) : Bool :=
  ('a' ≤ c && c ≤ 'z') || ('A' ≤ c && c ≤ 'Z') || ('0' ≤ c && c ≤ '9') || c = '_'

/-- ASCII lowercase conversion of one character, modelling
String.prototype.toLowerCase on the ASCII range. -/
def lcChar (c : Char) : Char :=
  if 'A' ≤ c && c ≤ 'Z' then Char.ofNat (c.toNat + 32) else c

/-- Lowercase a character list. -/
def lowerL (l : List Char) : List Char :=
  l.map lcChar

/-- String.prototype.trim: drop leading and trailing whitespace. -/
def trim (l : List Char) : List Char :=
  ((l.dropWhile isWs).reverse.dropWhile isWs).reverse

/-- Does the pattern occur as a prefix of the list (used to model
substring search)? -/
def listStarts (pat l : List Char) : Bool :=
  l.take pat.length == pat

/-- The pattern occurs in l starting at index i. -/
def occursAt (pat l : List Char) (i : Nat) : Prop :=
  listStarts pat (l.drop i) = true

instance (pat l : List Char) (i : Nat) : Decidable (occursAt pat l i) := by
  unfold occursAt; infer_instance

/-- Worker for lastIdx: scan every suffix, remembering the index of the
most recent position where the pattern occurs. -/
def lastIdxGo (pat : List Char) : Nat → List Char → Option Nat → Option Nat
  | _, [], acc => acc
  | i, c :: t, acc =>
    lastIdxGo pat (i + 1) t (if listStarts pat (c :: t) then some i else acc)

/-- String.prototype.lastIndexOf for a non-empty pattern: the largest
index at which the pattern occurs, none when it does not occur (the
source represents this case by -1). -/
def lastIdx (pat l : List Char) : Option Nat :=
  lastIdxGo pat 0 l none

-- ===========================================================================
-- smartSplit (content.js lines 95 to 156)
-- ===========================================================================

/-- One step of the scan modelling the global regex
  [.!?] backslash-s+ lookahead [A-Z]
used by smartSplit for sentence boundaries.  A match is a sentence
punctuation character followed by a non-empty whitespace run whose next
character is an ASCII uppercase letter; after a match the scan resumes at
the end of the whitespace run, exactly as the regex engine advances its
last index.  Each returned pair is the match position and the matched
string (punctuation plus whitespace run, the lookahead is not consumed).
The first argument is fuel; the callers supply enough for the whole
input. -/
def sentMatchesGo : Nat → Nat → List Char → List (Nat × List Char)
  | 0, _, _ => []
  | _ + 1, _, [] => []
  | fuel + 1, i, c :: t =>
    if c = '.' || c = '!' || c = '?' then
      let ws := t.takeWhile isWs
      if ws.length > 0 then
        match t.drop ws.length with
        | d :: _ =>
          if isUpperA d then
            (i, c :: ws) :: sentMatchesGo fuel (i + 1 + ws.length) (t.drop ws.length)
          else
            sentMatchesGo fuel (i + 1) t
        | [] => sentMatchesGo fuel (i + 1) t
      else
        sentMatchesGo fuel (i + 1) t
    else
      sentMatchesGo fuel (i + 1) t

/-- All sentence-boundary matches of a chunk, in scan order. -/
def sentMatches (l : List Char) : List (Nat × List Char) :=
  sentMatchesGo (l.length + 1) 0 l

/-- The scan modelling the global regex [,;] backslash-s used by
smartSplit for comma and semicolon boundaries: a comma or semicolon
followed by one whitespace character; the scan resumes after the two
matched characters.  The first argument is fuel; the callers supply
enough for the whole input. -/
def punctMatchesGo : Nat → Nat → List Char → List (Nat × List Char)
  | 0, _, _ => []
  | _ + 1, _, [] => []
  | _ + 1, _, [_] => []
  | fuel + 1, i, c :: d :: t =>
    if (c = ',' || c = ';') && isWs d then
      (i, [c, d]) :: punctMatchesGo fuel (i + 2) t
    else
      punctMatchesGo fuel (i + 1) (d :: t)

/-- All comma/semicolon-boundary matches of a chunk, in scan order. -/
def punctMatches (l : List Char) : List (Nat × List Char) :=
  punctMatchesGo (l.length + 1) 0 l

/-- The sentence-boundary candidate of one smartSplit iteration
(content.js lines 114 to 120): the last index of the last sentence match
string, accepted when strictly past half the limit; the matched string
length is added to the index.  none models the -1 of the source. -/
def sentCandidate (chunk : List Char) (m : Nat) : Option Nat :=
  match (sentMatches chunk).getLast? with
  | none => none
  | some pr =>
    match lastIdx pr.2 chunk with
    | none => none
    | some ls => if 2 * ls > m then some (ls + pr.2.length) else none

/-- The paragraph-break and line-break candidates (content.js lines 123
to 132): the last index of the pattern, rejected when strictly before
half the limit. -/
def gapCandidate (pat : List Char) (chunk : List Char) (m : Nat) : Option Nat :=
  match lastIdx pat chunk with
  | none => none
  | some i => if 2 * i < m then none else some i

/-- The comma/semicolon candidate (content.js lines 135 to 143): the
last index of the last punctuation match string, accepted when strictly
past half the limit, plus the matched string length (two characters). -/
def punctCandidate (chunk : List Char) (m : Nat) : Option Nat :=
  match (punctMatches chunk).getLast? with
  | none => none
  | some pr =>
    match lastIdx pr.2 chunk with
    | none => none
    | some lp => if 2 * lp > m then some (lp + pr.2.length) else none

/-- The split-point choice of one smartSplit iteration on the first
maxLength characters (the chunk).  Mirrors content.js lines 110 to 149:
sentence boundary, else paragraph break, else single line break, else
comma/semicolon, else the last space, else the hard limit itself.  The
source encodes a missing candidate as -1; here it is none. -/
def chooseSplit (chunk : List Char) (m : Nat) : Nat :=
  match sentCandidate chunk m with
  | some k => k
  | none =>
    match gapCandidate ['\n', '\n'] chunk m with
    | some k => k
    | none =>
      match gapCandidate ['\n'] chunk m with
      | some k => k
      | none =>
        match punctCandidate chunk m with
        | some k => k
        | none =>
          match lastIdx [' '] chunk with
          | some i => i
          | none => m

/-- The while loop of smartSplit.  Each iteration removes at least one
character from the remaining text, so fuel equal to the input length plus
one never runs out. -/
def smartSplitGo (m : Nat) : Nat → List Char → List (List Char)
  | 0, _ => []
  | _ + 1, [] => []
  | fuel + 1, remaining =>
    if remaining.length ≤ m then [remaining]
    else
      let chunk := remaining.take m
      let k := chooseSplit chunk m
      trim (remaining.take k) :: smartSplitGo m fuel (trim (remaining.drop k))

/-- smartSplit (content.js lines 95 to 156): split text into chunks of at
most maxLength characters, preferring natural boundaries; empty pieces
produced by trimming are filtered out of the long path, while a short or
empty input is returned as a one-element list unchanged. -/
def smartSplit (s : List Char) (m : Nat) : List (List Char) :=
  if s.length ≤ m then [s]
  else (smartSplitGo m (s.length + 1) s).filter (fun c => c ≠ [])

-- ===========================================================================
-- parseScript (content.js lines 169 to 216)
-- ===========================================================================

/-- The two block kinds produced by the script parser. -/
inductive BType where
  | narration
  | dialogue
  deriving DecidableEq

/-- A script block.  parseScript produces type and text; detectSpeakers
adds the speaker of dialogue blocks; attachVoices adds the voice. -/
structure Block where
  btype : BType
  text : List Char
  speaker : Option (List Char) := none
  voice : Option String := none
  deriving DecidableEq

/-- Emit a narration block when the trimmed text is non-empty. -/
def optNarr (t : List Char) : List Block :=
  if t = [] then [] else [{ btype := BType.narration, text := t }]

/-- Emit a dialogue block when the trimmed text is non-empty. -/
def optDial (t : List Char) : List Block :=
  if t = [] then [] else [{ btype := BType.dialogue, text := t }]

/-- The scanning loop of parseScript, driven by the global regex
  doublequote ( [^doublequote]* ) doublequote.
Each successful match yields the narration before the opening quote (if
non-blank) and the dialogue between the quotes (if non-blank); when no
further match exists, the whole remaining segment, including any lone
unmatched quote, is emitted as trailing narration.  Every recursive call
drops at least two characters, so fuel of the input length plus one is
enough. -/
def psGo : Nat → List Char → List Block
  | 0, _ => []
  | fuel + 1, s =>
    let pre := s.takeWhile (fun c => c ≠ '"')
    match s.dropWhile (fun c => c ≠ '"') with
    | [] => optNarr (trim s)
    | _ :: rest1 =>
      let mid := rest1.takeWhile (fun c => c ≠ '"')
      match rest1.dropWhile (fun c => c ≠ '"') with
      | [] => optNarr (trim s)
      | _ :: rest3 => optNarr (trim pre) ++ optDial (trim mid) ++ psGo fuel rest3

/-- parseScript (content.js lines 169 to 216): split raw text into
narration and dialogue blocks; blank input yields the empty list. -/
def parseScript (s : List Char) : List Block :=
  if trim s = [] then [] else psGo (s.length + 1) s

/-- Reference decomposition for the specification reading of parseScript:
split the text into maximal segments tagged inside-quotes (true) or
outside-quotes (false), in strict left-to-right order; a final segment
with an unmatched opening quote stays outside, quote included. -/
def qsGo : Nat → List Char → List (Bool × List Char)
  | 0, _ => []
  | fuel + 1, s =>
    let pre := s.takeWhile (fun c => c ≠ '"')
    match s.dropWhile (fun c => c ≠ '"') with
    | [] => [(false, s)]
    | _ :: rest1 =>
      let mid := rest1.takeWhile (fun c => c ≠ '"')
      match rest1.dropWhile (fun c => c ≠ '"') with
      | [] => [(false, s)]
      | _ :: rest3 => (false, pre) :: (true, mid) :: qsGo fuel rest3

/-- Turn one tagged segment into a block: trim it, drop it when blank,
classify inside-quotes as dialogue and outside as narration. -/
def segBlock (pr : Bool × List Char) : Option Block :=
  if trim pr.2 = [] then none
  else some { btype := if pr.1 then BType.dialogue else BType.narration, text := trim pr.2 }

/-- The specification reading of the segmenter: tag segments left to
right, then trim, drop blanks and classify. -/
def parseScriptRef (s : List Char) : List Block :=
  (qsGo (s.length + 1) s).filterMap segBlock

-- ===========================================================================
-- detectSpeakers (content.js lines 429 to 526)
-- ===========================================================================

/-- Word boundary of the regex anchor backslash-b at position q of ctx:
exactly one of the character before q and the character at q is a word
character (positions outside the string count as non-word). -/
def boundaryAt (ctx : List Char) (q : Nat) : Bool :=
  let prev := match q with
    | 0 => false
    | p + 1 => match ctx.get? p with
      | some c => isWordChar c
      | none => false
  let cur := match ctx.get? q with
    | some c => isWordChar c
    | none => false
  prev != cur

/-- Case-insensitive equality of character lists, modelling the regex i
flag on the ASCII range. -/
def ciEq (a b : List Char) : Bool :=
  lowerL a == lowerL b

/-- The whole-word regex backslash-b name backslash-b (flags g and i)
matches ctx at position p. -/
def wordMatchAt (name ctx : List Char) (p : Nat) : Bool :=
  ciEq ((ctx.drop p).take name.length) name
    && boundaryAt ctx p
    && boundaryAt ctx (p + name.length)

/-- Sequential scan of the global whole-word regex: record every match
position, resuming after each match, and keep the last one, exactly as
the exec loop of detectSpeakers does. -/
def lwmGo (name ctx : List Char) : Nat → Nat → Option Nat → Option Nat
  | 0, _, acc => acc
  | fuel + 1, p, acc =>
    if p ≥ ctx.length then acc
    else if wordMatchAt name ctx p then lwmGo name ctx fuel (p + name.length) (some p)
    else lwmGo name ctx fuel (p + 1) acc

/-- The index of the last whole-word occurrence of a character name in
the context text (content.js lines 477 to 487), none when the name does
not occur.  A zero-length name is mapped to none; on such a name the
source exec loop would not terminate, and character names are never
empty. -/
def lastWordMatch (name ctx : List Char) : Option Nat :=
  if name = [] then none else lwmGo name ctx (ctx.length + 1) 0 none

/-- The context window of the dialogue block at position i: the narration
texts among the up-to-three immediately preceding blocks, in script
order, joined with single spaces.  Mirrors the backward loop of
content.js lines 462 to 471 (j from i-1 down to i minus the search
radius, unshifting narration texts) followed by join. -/
def contextAt (full : List Block) (i : Nat) : List Char :=
  let r := min i 3
  List.intercalate [' ']
    (((full.take i).drop (i - r)).filterMap
      (fun b => if b.btype = BType.narration then some b.text else none))

/-- Keep the hit with the strictly largest index, preferring the earlier
list entry on ties: the stable descending sort of content.js line 493
followed by taking the first element. -/
def pickBest (found : List (List Char × Nat)) : Option (List Char) :=
  (found.foldl
    (fun acc pr => match acc with
      | none => some pr
      | some pr0 => if pr.2 > pr0.2 then some pr else acc)
    none).map (fun pr => pr.1)

/-- Resolve the speaker of the dialogue block at position i given the
remembered last speaker: collect for every character name the index of
its last whole-word occurrence in the context window, take the name with
the largest index, else fall back to the last speaker, else to
Narrator. -/
def resolveOne (full : List Block) (chars : List (List Char)) (i : Nat)
    (last : Option (List Char)) : List Char :=
  let ctx := contextAt full i
  let found := chars.filterMap (fun nm => (lastWordMatch nm ctx).map (fun k => (nm, k)))
  match pickBest found with
  | some nm => nm
  | none =>
    match last with
    | some s => s
    | none => "Narrator".toList

/-- The loop of detectSpeakers: walk the blocks with the running position
and the remembered last speaker, passing narration through unchanged and
annotating dialogue with its resolved speaker, which then becomes the new
last speaker. -/
def dsGo (full : List Block) (chars : List (List Char)) :
    Nat → List Block → Option (List Char) → List Block
  | _, [], _ => []
  | i, b :: rest, last =>
    if b.btype = BType.narration then
      b :: dsGo full chars (i + 1) rest last
    else
      let sp := resolveOne full chars i last
      { b with speaker := some sp } :: dsGo full chars (i + 1) rest (some sp)

/-- detectSpeakers (content.js lines 429 to 526): annotate every dialogue
block with a speaker; with no characters at all, every dialogue block is
attributed to the Narrator. -/
def detectSpeakers (script : List Block) (chars : List (List Char)) : List Block :=
  if chars.isEmpty then
    script.map (fun b =>
      if b.btype = BType.dialogue then { b with speaker := some "Narrator".toList } else b)
  else
    dsGo script chars 0 script none

/-- The last speaker remembered just before position i, defined by
recursion over the positions: the resolved speaker of the most recent
dialogue block before i, none when there is none. -/
def specLast (full : List Block) (chars : List (List Char)) : Nat → Option (List Char)
  | 0 => none
  | i + 1 =>
    match full.get? i with
    | some b =>
      if b.btype = BType.dialogue then
        some (resolveOne full chars i (specLast full chars i))
      else
        specLast full chars i
    | none => specLast full chars i

-- ===========================================================================
-- Gender detection and the character registry (content.js lines 609 to 736)
-- ===========================================================================

/-- The curated male first-name table NAME_DATASETS.male. -/
def NAME_DATASETS_male : List String :=
  ["Jack", "John", "James", "Michael", "David", "Robert", "William", "Richard", "Thomas", "Daniel",
   "Matthew", "Mark", "Paul", "Steven", "Andrew", "Kenneth", "Joshua", "Kevin", "Brian", "George",
   "Edward", "Ronald", "Timothy", "Jason", "Jeffrey", "Ryan", "Jacob", "Nicholas", "Eric", "Stephen",
   "Jonathan", "Larry", "Justin", "Scott", "Brandon", "Benjamin", "Samuel", "Raymond", "Gregory", "Frank",
   "Alexander", "Patrick", "Peter", "Harold", "Douglas", "Henry", "Carl", "Arthur", "Tom", "Marcus",
   "Luke", "Nathan", "Aaron", "Adam", "Isaac", "Tyler", "Kyle", "Walter", "Mike", "Alex", "Chris",
   "Joe", "Ethan", "Noah", "Liam", "Mason", "Logan", "Lucas", "Jackson", "Aiden", "Elijay", "Caleb",
   "Gabriel", "Hunter", "Connor", "Dylan", "Landon", "Evan", "Gavin", "Cole", "Austin", "Derek"]

/-- The curated female first-name table NAME_DATASETS.female. -/
def NAME_DATASETS_female : List String :=
  ["Emily", "Sarah", "Jessica", "Ashley", "Jennifer", "Amanda", "Melissa", "Michelle", "Stephanie",
   "Nicole", "Elizabeth", "Rebecca", "Laura", "Cynthia", "Amy", "Kathleen", "Angela", "Shirley", "Anna",
   "Brenda", "Pamela", "Samantha", "Katherine", "Christine", "Deborah", "Rachel", "Carolyn", "Janet",
   "Catherine", "Maria", "Heather", "Diane", "Ruth", "Julie", "Olivia", "Emma", "Ava", "Sophia",
   "Isabella", "Mia", "Charlotte", "Amelia", "Harper", "Evelyn", "Abigail", "Madison", "Ella", "Scarlett",
   "Grace", "Chloe", "Victoria", "Riley", "Aria", "Lily", "Aubrey", "Zoey", "Hannah", "Lisa", "Mary",
   "Susan", "Margaret", "Dorothy", "Sandra", "Kimberly", "Naomi", "Hana", "Alice", "Megan", "Sophie",
   "Lucy", "Ellie", "Layla", "Nora", "Zoe", "Mila", "Luna", "Camila", "Gianna", "Penelope", "Hazel",
   "Violet", "Stella", "Aurora", "Natalie", "Leah", "Bella", "Claire", "Skylar", "Lucy", "Anna"]

/-- The curated unisex first-name table NAME_DATASETS.unisex. -/
def NAME_DATASETS_unisex : List String :=
  ["Alex", "Jordan", "Taylor", "Morgan", "Casey", "Riley", "Avery", "Quinn", "Sage", "River",
   "Dakota", "Phoenix", "Skylar", "Cameron", "Rowan", "Charlie", "Jamie", "Reese", "Hayden",
   "Peyton", "Emerson", "Finley", "Sawyer", "Parker", "Kai", "Eden", "Remi", "Rory"]

/-- Split a character list at maximal runs of separator characters,
modelling String.prototype.split with a one-character-class-plus regex:
runs of separators collapse, while leading and trailing separators
contribute empty pieces. -/
def splitRunsGo (p : Char → Bool) : Nat → List Char → List Char → List (List Char)
  | 0, _, cur => [cur.reverse]
  | _ + 1, [], cur => [cur.reverse]
  | fuel + 1, c :: t, cur =>
    if p c then cur.reverse :: splitRunsGo p fuel (t.dropWhile p) []
    else splitRunsGo p fuel t (c :: cur)

/-- Split at maximal runs of characters satisfying p. -/
def splitRuns (p : Char → Bool) (l : List Char) : List (List Char) :=
  splitRunsGo p (l.length + 1) l []

/-- Does the list contain the given sublist (String.prototype.includes)? -/
def listContainsGo (sub : List Char) : Nat → List Char → Bool
  | 0, _ => false
  | _ + 1, l =>
    if listStarts sub l then true
    else match l with
      | [] => false
      | _ :: t => listContainsGo sub t.length t

/-- String.prototype.includes for character lists. -/
def listContains (sub l : List Char) : Bool :=
  listContainsGo sub (l.length + 1) l

/-- The masculine pronoun list of the pronoun scorer. -/
def malePronouns : List (List Char) :=
  ["he".toList, "him".toList, "his".toList, "himself".toList]

/-- The feminine pronoun list of the pronoun scorer. -/
def femalePronouns : List (List Char) :=
  ["she".toList, "her".toList, "hers".toList, "herself".toList]

/-- Count the pronoun hits of one sentence-like chunk: split the chunk at
whitespace runs and count the words that are exactly one of the given
pronouns. -/
def pronounHits (prons : List (List Char)) (chunk : List Char) : Nat :=
  ((splitRuns isWs chunk).filter (fun w => prons.contains w)).length

/-- The pronoun score of a name over the lowercased source text: sum the
hits of every sentence-like chunk (split at runs of . ! ? and line
breaks) that mentions the lowercased name. -/
def pronounScore (prons : List (List Char)) (lowerName textLower : List Char) : Nat :=
  (((splitRuns (fun c => c = '.' || c = '!' || c = '?' || c = '\n') textLower).filter
      (fun chunk => listContains lowerName chunk)).map (pronounHits prons)).sum

/-- detectGender (content.js lines 645 to 704).  The first priority reads
the character profile shown on the page; that document lookup is outside
the analysed core and is supplied here as the oracle ui, returning the
gender string it produces or none (detached pages always give none).
Then: exact match against the curated name tables; then pronoun scoring
over the source text with strict majority; then the trailing-a
heuristic; else unknown.  Narrator is hard-coded neutral. -/
def detectGender (ui : String → Option String) (name : String)
    (contextText : List Char) : String :=
  if name = "Narrator" then "neutral"
  else
    let lowerName := (lowerL name.toList)
    match ui name with
    | some g => g
    | none =>
      if NAME_DATASETS_male.contains name then "male"
      else if NAME_DATASETS_female.contains name then "female"
      else if NAME_DATASETS_unisex.contains name then "neutral"
      else
        let textLower := lowerL contextText
        let heScore := pronounScore malePronouns lowerName textLower
        let sheScore := pronounScore femalePronouns lowerName textLower
        if contextText ≠ [] && heScore > sheScore then "male"
        else if contextText ≠ [] && sheScore > heScore then "female"
        else if lowerName.getLast? = some 'a'
            && !(["joshua", "luca", "ezra", "elija"].map String.toList).contains lowerName then
          "female"
        else "unknown"

/-- One registry entry: the detected gender string and the assigned voice
(none models the null and undefined of the source). -/
structure Entry where
  gender : String
  voice : Option String := none
  deriving DecidableEq

/-- buildCharacterRegistry (content.js lines 712 to 736).  The source
mutates its characterList argument, pushing Narrator onto the very array
when absent, then builds one registry entry per name; the model returns
the updated list together with the registry (an association list in
insertion order, as Object.keys iterates). -/
def buildCharacterRegistry (ui : String → Option String) (characterList : List String)
    (contextText : List Char) : List String × List (String × Entry) :=
  let list :=
    if characterList.contains "Narrator" then characterList
    else characterList ++ ["Narrator"]
  (list, list.map (fun name => (name, { gender := detectGender ui name contextText })))

-- ===========================================================================
-- Voice pools and assignVoices (content.js lines 743 to 838)
-- ===========================================================================

/-- The voice pool configuration. -/
structure VoicePools where
  male : List String
  female : List String
  neutral : List String
  narrator : String
  fallback : String
  deriving DecidableEq

/-- getVoicePools (content.js lines 743 to 757): the fixed generic voice
identifiers. -/
def getVoicePools : VoicePools :=
  { male := ["male_voice_1", "male_voice_2", "male_voice_3"],
    female := ["female_voice_1", "female_voice_2", "female_voice_3"],
    neutral := ["neutral_voice_1", "neutral_voice_2"],
    narrator := "narrator_voice",
    fallback := "default_voice" }

/-- JavaScript or-else on an optional string: an absent or empty value is
falsy and yields the default. -/
def jsOrElse (v : Option String) (d : String) : String :=
  match v with
  | some s => if s = "" then d else s
  | none => d

/-- The loop body of assignVoices over the registry entries, carrying the
three running counters (maleIndex, femaleIndex, neutralIndex).  Narrator
receives the preferred voice or the narrator voice and touches no
counter; male, female and neutral entries draw pool at counter modulo
pool length and bump their counter; every other gender string falls to
the default branch, which alternates on the parity of the neutral
counter, draws from the male or female pool (bumping that pool counter
and the neutral counter) and overwrites the gender with male? or
female?.  An empty pool yields no voice, as indexing by NaN does in the
source. -/
def assignVoicesGo (pools : VoicePools) (pref : Option String) :
    List (String × Entry) → Nat × Nat × Nat → List (String × Entry)
  | [], _ => []
  | (name, e) :: rest, (m, f, n) =>
    if name = "Narrator" then
      (name, { gender := e.gender, voice := some (jsOrElse pref pools.narrator) })
        :: assignVoicesGo pools pref rest (m, f, n)
    else if e.gender = "male" then
      (name, { gender := e.gender, voice := pools.male.get? (m % pools.male.length) })
        :: assignVoicesGo pools pref rest (m + 1, f, n)
    else if e.gender = "female" then
      (name, { gender := e.gender, voice := pools.female.get? (f % pools.female.length) })
        :: assignVoicesGo pools pref rest (m, f + 1, n)
    else if e.gender = "neutral" then
      (name, { gender := e.gender, voice := pools.neutral.get? (n % pools.neutral.length) })
        :: assignVoicesGo pools pref rest (m, f, n + 1)
    else if n % 2 = 0 then
      (name, { gender := "male?", voice := pools.male.get? (m % pools.male.length) })
        :: assignVoicesGo pools pref rest (m + 1, f, n + 1)
    else
      (name, { gender := "female?", voice := pools.female.get? (f % pools.female.length) })
        :: assignVoicesGo pools pref rest (m, f + 1, n + 1)

/-- assignVoices (content.js lines 772 to 838): assign a voice to every
registry entry, starting all three counters at zero. -/
def assignVoices (reg : List (String × Entry)) (pools : VoicePools)
    (pref : Option String) : List (String × Entry) :=
  assignVoicesGo pools pref reg (0, 0, 0)

/-- The counter update of one assignVoices step, factored out for the
closed-form description of the loop. -/
def cntStep (c : Nat × Nat × Nat) (p : String × Entry) : Nat × Nat × Nat :=
  let (m, f, n) := c
  if p.1 = "Narrator" then c
  else if p.2.gender = "male" then (m + 1, f, n)
  else if p.2.gender = "female" then (m, f + 1, n)
  else if p.2.gender = "neutral" then (m, f, n + 1)
  else if n % 2 = 0 then (m + 1, f, n + 1)
  else (m, f + 1, n + 1)

/-- The output entry of one assignVoices step at given counters, factored
out for the closed-form description of the loop. -/
def applyEntry (pools : VoicePools) (pref : Option String)
    (c : Nat × Nat × Nat) (p : String × Entry) : String × Entry :=
  let (m, f, n) := c
  if p.1 = "Narrator" then
    (p.1, { gender := p.2.gender, voice := some (jsOrElse pref pools.narrator) })
  else if p.2.gender = "male" then
    (p.1, { gender := p.2.gender, voice := pools.male.get? (m % pools.male.length) })
  else if p.2.gender = "female" then
    (p.1, { gender := p.2.gender, voice := pools.female.get? (f % pools.female.length) })
  else if p.2.gender = "neutral" then
    (p.1, { gender := p.2.gender, voice := pools.neutral.get? (n % pools.neutral.length) })
  else if n % 2 = 0 then
    (p.1, { gender := "male?", voice := pools.male.get? (m % pools.male.length) })
  else
    (p.1, { gender := "female?", voice := pools.female.get? (f % pools.female.length) })

/-- The pool of a gender string. -/
def poolFor (pools : VoicePools) (g : String) : List String :=
  if g = "male" then pools.male
  else if g = "female" then pools.female
  else if g = "neutral" then pools.neutral
  else []

-- ===========================================================================
-- AudioProducer.processBlock (content.js lines 1313 to 1375)
-- ===========================================================================

/-- One audio queue item, as pushed by processBlock (content.js lines
1333 to 1342).  The generated audio payload is abstract (the injected
provider determines it). -/
structure QItem (α : Type) where
  audio : α
  voice : Option String
  text : List Char
  speaker : List Char
  btype : BType
  blockIndex : Nat
  chunkIndex : Nat
  totalChunks : Nat
  deriving DecidableEq

/-- JavaScript or-else on an optional character list (empty is falsy). -/
def jsOrElseL (v : Option (List Char)) (d : List Char) : List Char :=
  match v with
  | some s => if s = [] then d else s
  | none => d

/-- The producer state observed by processBlock: the shared queue, the
generated-chunk counter, the reported chunk errors (block index and chunk
index of each onError call) and the current block counter. -/
structure PState (α : Type) where
  queue : List (QItem α)
  generatedCount : Nat
  errors : List (Nat × Nat)
  currentBlock : Nat
  deriving DecidableEq

/-- The chunk loop of processBlock over the enumerated chunks of one
block.  The injected provider is the oracle gen from chunk index and
chunk text to an optional audio payload; none models a thrown
generation error.  On success the item is appended to the queue and the
generated counter advances; on failure the error is reported and the
loop continues with the next chunk. -/
def processChunks {α : Type} (gen : Nat → List Char → Option α) (block : Block)
    (blockIndex total : Nat) : List (Nat × List Char) → PState α → PState α
  | [], st => st
  | (i, t) :: rest, st =>
    match gen i t with
    | some a =>
      processChunks gen block blockIndex total rest
        { st with
          queue := st.queue ++
            [{ audio := a, voice := block.voice, text := t,
               speaker := jsOrElseL block.speaker "Narrator".toList,
               btype := block.btype, blockIndex := blockIndex,
               chunkIndex := i, totalChunks := total }],
          generatedCount := st.generatedCount + 1 }
    | none =>
      processChunks gen block blockIndex total rest
        { st with errors := st.errors ++ [(blockIndex, i)] }

/-- processBlock (content.js lines 1313 to 1375): split the block text
with smartSplit at 900, run the chunk loop, then advance the current
block counter. -/
def processBlock {α : Type} (gen : Nat → List Char → Option α) (block : Block)
    (blockIndex : Nat) (st : PState α) : PState α :=
  let chunks := smartSplit block.text 900
  let st1 := processChunks gen block blockIndex chunks.length chunks.enum st
  { st1 with currentBlock := st1.currentBlock + 1 }

-- ===========================================================================
-- AudioConsumer.playbackLoop (content.js lines 1656 to 1712)
-- ===========================================================================

/-- What one iteration of the playback loop does at the moment of its
check: leave the loop, play the chunk at the cursor, or wait the given
number of milliseconds and retry. -/
inductive LoopAction where
  | exit
  | play
  | wait (ms : Nat)
  deriving DecidableEq

/-- The consumer state read at the top of the loop. -/
structure ConsSt where
  isStopped : Bool
  currentIndex : Nat
  deriving DecidableEq

/-- The producer state read at the top of the loop. -/
structure ProdSt (α : Type) where
  queue : List (QItem α)
  isGenerating : Bool
  deriving DecidableEq

/-- The decision of one playback loop iteration (content.js lines 1659
to 1700): stopped breaks out; a chunk available at the cursor is played;
otherwise a finished producer breaks out and a still-generating producer
causes a 100 millisecond wait. -/
def loopStep {α : Type} (c : ConsSt) (p : ProdSt α) : LoopAction :=
  if c.isStopped then LoopAction.exit
  else if c.currentIndex < p.queue.length then LoopAction.play
  else if p.isGenerating = false then LoopAction.exit
  else LoopAction.wait 100

/-- Run the playback loop against a quiescent producer snapshot,
recording for every played item whether its playback succeeded according
to the playOk oracle (playChunk catches per-unit failures and continues,
content.js lines 1572 to 1586).  Returns the final consumer state, the
play record, and whether the loop exited within the supplied fuel. -/
def runLoop {α : Type} (playOk : QItem α → Bool) (p : ProdSt α) :
    Nat → ConsSt → List (QItem α × Bool) → Option (ConsSt × List (QItem α × Bool))
  | 0, _, _ => none
  | fuel + 1, c, acc =>
    match loopStep c p with
    | LoopAction.exit => some (c, acc)
    | LoopAction.play =>
      match p.queue.get? c.currentIndex with
      | some it =>
        runLoop playOk p fuel { c with currentIndex := c.currentIndex + 1 }
          (acc ++ [(it, playOk it)])
      | none => none
    | LoopAction.wait _ => runLoop playOk p fuel c acc

-- ===========================================================================
-- The producer/consumer session as a transition system
-- ===========================================================================

/-- The shared state of one playback session: the queue (items abstracted
to identifiers), the producer flag isGenerating, the consumer cursor
currentIndex and the consumer flag isStopped. -/
structure SysState where
  queue : List Nat
  isGenerating : Bool
  currentIndex : Nat
  isStopped : Bool
  deriving DecidableEq

/-- The observable events of a session: the producer appends a generated
item (processBlock push, content.js line 1333); the producer finishes
(isGenerating cleared, line 1403); the consumer plays the item at its
cursor and advances (lines 1670 to 1676); the consumer finds no item
while the producer still generates and polls (lines 1687 to 1699); the
user stops, which sets isStopped and makes the producer clear its queue
and its flag (consumer stop at lines 1742 to 1767 calling producer stop
at lines 1446 to 1452). -/
inductive SysEvent where
  | enqueue (it : Nat)
  | produceDone
  | consPlay
  | consWait
  | stopEvt
  deriving DecidableEq

/-- One transition; none when the event is not enabled in the state. -/
def sysStep (s : SysState) : SysEvent → Option SysState
  | SysEvent.enqueue it => some { s with queue := s.queue ++ [it] }
  | SysEvent.produceDone => some { s with isGenerating := false }
  | SysEvent.consPlay =>
    if s.isStopped = false ∧ s.currentIndex < s.queue.length then
      some { s with currentIndex := s.currentIndex + 1 }
    else none
  | SysEvent.consWait =>
    if s.isStopped = false ∧ s.queue.length ≤ s.currentIndex ∧ s.isGenerating = true then
      some s
    else none
  | SysEvent.stopEvt =>
    some { s with isStopped := true, queue := [], isGenerating := false }

/-- Run a list of events from a state. -/
def sysRun (s : SysState) : List SysEvent → Option SysState
  | [] => some s
  | e :: evts => (sysStep s e).bind (fun s1 => sysRun s1 evts)

/-- The state at the start of a session: generateScript has reset the
queue and raised isGenerating (content.js lines 1387 to 1391) and the
consumer play has reset its cursor and cleared isStopped (lines 1726 to
1728), before any event. -/
def sysInit : SysState :=
  { queue := [], isGenerating := true, currentIndex := 0, isStopped := false }

def sampleItem : QItem Nat :=
  { audio := 0, voice := none, text := [], speaker := [], btype := BType.narration,
    blockIndex := 0, chunkIndex := 0, totalChunks := 1 }

/-- The number of entries before position i that are of gender g and are
not the Narrator (the entries that bump the counter of gender g when no
default-branch entry interferes). -/
def countPriorGender (reg : List (String × Entry)) (i : Nat) (g : String) : Nat :=
  ((reg.take i).filter (fun p => (p.1 != "Narrator") && (p.2.gender == g))).length

/-- Five male characters in registration order, as in the voice-cycling
scenario of the specification. -/
def regFiveMales : List (String × Entry) :=
  [("A", { gender := "male" }), ("B", { gender := "male" }), ("C", { gender := "male" }),
   ("D", { gender := "male" }), ("E", { gender := "male" })]

/-- A registry with unknown-gender characters interleaved with a male
character, used to exercise the alternation. -/
def regUnknowns : List (String × Entry) :=
  [("U1", { gender := "unknown" }), ("M", { gender := "male" }),
   ("U2", { gender := "unknown" })]

/-- The context-memory scenario of the specification: one narration
naming Lisa followed by two dialogue blocks. -/
def script3 : List Block :=
  parseScript "Lisa entered the room. \"Hey everyone!\" \"Thanks!\"".toList

/-- The character list of the context-memory scenario. -/
def chars3 : List (List Char) :=
  ["Lisa".toList, "Mark".toList]

/-- A block whose 1850-character text smartSplit cuts into three chunks
(900, 900 and 50 characters). -/
def blockThree : Block :=
  { btype := BType.narration, text := List.replicate 1850 'a' }

/-- A provider oracle that fails exactly on chunk index 1 (the second
chunk). -/
def genFailSecond : Nat → List Char → Option Nat :=
  fun i _ => if i = 1 then none else some i

/-- The producer state at the start of a session. -/
def stEmpty : PState Nat :=
  { queue := [], generatedCount := 0, errors := [], currentBlock := 0 }

/-- The first queued item of the three-chunk scenario (chunk 0). -/
def qItemA : QItem Nat :=
  { audio := 0, voice := none, text := List.replicate 900 'a',
    speaker := "Narrator".toList, btype := BType.narration, blockIndex := 0,
    chunkIndex := 0, totalChunks := 3 }

/-- The second queued item of the three-chunk scenario (chunk 2; chunk 1
failed and is absent). -/
def qItemB : QItem Nat :=
  { audio := 2, voice := none, text := List.replicate 50 'a',
    speaker := "Narrator".toList, btype := BType.narration, blockIndex := 0,
    chunkIndex := 2, totalChunks := 3 }

/-- No preferred boundary qualifies in the chunk: every sentence match
sits at or before half the limit, every paragraph break, line break and
space sits strictly before half the limit, and every comma/semicolon
match sits at or before half the limit. -/
def noQualifyingBoundary (chunk : List Char) (m : Nat) : Prop :=
  (∀ pr ∈ sentMatches chunk, 2 * pr.1 ≤ m)
  ∧ (∀ i, occursAt ['\n', '\n'] chunk i → 2 * i < m)
  ∧ (∀ i, occursAt ['\n'] chunk i → 2 * i < m)
  ∧ (∀ pr ∈ punctMatches chunk, 2 * pr.1 ≤ m)
  ∧ (∀ i, occursAt [' '] chunk i → 2 * i < m)

/-- Claim C1: the consumer playback loop exits exactly when the consumer is stopped or the
producer is no longer generating and the cursor has reached the queue length; otherwise it
either plays the item at the cursor and advances, or waits the fixed 100 ms interval when the
producer is still generating. -/
theorem loopStep_exit_iff {α : Type} (c : ConsSt) (p : ProdSt α) :
    (loopStep c p = LoopAction.exit ↔
      (c.isStopped = true ∨ (p.isGenerating = false ∧ p.queue.length ≤ c.currentIndex)))
    ∧ (c.isStopped = false → c.currentIndex < p.queue.length → loopStep c p = LoopAction.play)
    ∧ (c.isStopped = false → p.queue.length ≤ c.currentIndex → p.isGenerating = true →
        loopStep c p = LoopAction.wait 100) := by
  obtain ⟨st, ci⟩ := c
  obtain ⟨q, g⟩ := p
  refine ⟨?_, ?_, ?_⟩
  · rcases st with _ | _
    · by_cases hlt : ci < q.length
      · have hle : ¬ q.length ≤ ci := Nat.not_le.mpr hlt
        simp [loopStep, hlt, hle]
      · rcases g with _ | _
        · simp [loopStep, hlt, Nat.not_lt.mp hlt]
        · simp [loopStep, hlt]
    · simp [loopStep]
  · intro h1 h2
    dsimp only at h1 h2
    simp [loopStep, h1, h2]
  · intro h1 h2 h3
    dsimp only at h1 h2 h3
    simp [loopStep, h1, h3, Nat.not_lt.mpr h2]

theorem loopStep_exit_iff_witness :
    loopStep { isStopped := false, currentIndex := 0 }
        ({ queue := [sampleItem], isGenerating := true } : ProdSt Nat) = LoopAction.play
    ∧ loopStep { isStopped := false, currentIndex := 0 }
        ({ queue := [], isGenerating := true } : ProdSt Nat) = LoopAction.wait 100
    ∧ loopStep { isStopped := false, currentIndex := 0 }
        ({ queue := [], isGenerating := false } : ProdSt Nat) = LoopAction.exit :=
  ⟨(loopStep_exit_iff _ _).2.1 rfl (by decide),
   (loopStep_exit_iff _ _).2.2 rfl (by decide) rfl,
   (loopStep_exit_iff _ _).1.mpr (Or.inr ⟨rfl, by decide⟩)⟩

theorem loopStep_stop_cex :
    loopStep { isStopped := true, currentIndex := 1 }
        ({ queue := [], isGenerating := true } : ProdSt Nat) = LoopAction.exit
    ∧ ({ queue := [], isGenerating := true } : ProdSt Nat).isGenerating = true
    ∧ ({ queue := [], isGenerating := true } : ProdSt Nat).queue.length ≠
        ({ isStopped := true, currentIndex := 1 } : ConsSt).currentIndex :=
  ⟨rfl, rfl, by decide⟩

/-- Any single stop-free step keeps the cursor within the queue length. -/
theorem sysStep_inv (s s1 : SysState) (e : SysEvent) (he : e ≠ SysEvent.stopEvt)
    (h : sysStep s e = some s1) (hinv : s.currentIndex ≤ s.queue.length) :
    s1.currentIndex ≤ s1.queue.length := by
  cases e with
  | enqueue it =>
    simp [sysStep] at h
    subst h
    simp
    omega
  | produceDone =>
    simp [sysStep] at h
    subst h
    simpa using hinv
  | consPlay =>
    simp [sysStep] at h
    obtain ⟨⟨h1, h2⟩, h3⟩ := h
    subst h3
    simpa using h2
  | consWait =>
    simp [sysStep] at h
    obtain ⟨-, h3⟩ := h
    subst h3
    exact hinv
  | stopEvt => exact absurd rfl he

/-- Any single stop-free step only appends to the queue. -/
theorem sysStep_extend (s s1 : SysState) (e : SysEvent) (he : e ≠ SysEvent.stopEvt)
    (h : sysStep s e = some s1) : ∃ tail, s1.queue = s.queue ++ tail := by
  cases e with
  | enqueue it =>
    simp [sysStep] at h
    subst h
    exact ⟨[it], rfl⟩
  | produceDone =>
    simp [sysStep] at h
    subst h
    exact ⟨[], by simp⟩
  | consPlay =>
    simp [sysStep] at h
    obtain ⟨-, h3⟩ := h
    subst h3
    exact ⟨[], by simp⟩
  | consWait =>
    simp [sysStep] at h
    obtain ⟨-, h3⟩ := h
    subst h3
    exact ⟨[], by simp⟩
  | stopEvt => exact absurd rfl he

/-- A stop-free run keeps the cursor within the queue length. -/
theorem sysRun_inv (evts : List SysEvent) (s s1 : SysState)
    (he : ∀ e ∈ evts, e ≠ SysEvent.stopEvt) (h : sysRun s evts = some s1)
    (hinv : s.currentIndex ≤ s.queue.length) :
    s1.currentIndex ≤ s1.queue.length := by
  induction evts generalizing s with
  | nil =>
    simp [sysRun] at h
    subst h
    exact hinv
  | cons e evts ih =>
    simp only [sysRun, Option.bind_eq_some] at h
    obtain ⟨s2, h2, h3⟩ := h
    exact ih s2 (fun x hx => he x (List.mem_cons_of_mem e hx)) h3
      (sysStep_inv s s2 e (he e (List.mem_cons_self e evts)) h2 hinv)

/-- A stop-free run only appends to the queue. -/
theorem sysRun_extend (evts : List SysEvent) (s s1 : SysState)
    (he : ∀ e ∈ evts, e ≠ SysEvent.stopEvt) (h : sysRun s evts = some s1) :
    ∃ tail, s1.queue = s.queue ++ tail := by
  induction evts generalizing s with
  | nil =>
    simp [sysRun] at h
    subst h
    exact ⟨[], by simp⟩
  | cons e evts ih =>
    simp only [sysRun, Option.bind_eq_some] at h
    obtain ⟨s2, h2, h3⟩ := h
    obtain ⟨t1, ht1⟩ := sysStep_extend s s2 e (he e (List.mem_cons_self e evts)) h2
    obtain ⟨t2, ht2⟩ := ih s2 (fun x hx => he x (List.mem_cons_of_mem e hx)) h3
    exact ⟨t1 ++ t2, by simp [ht2, ht1]⟩

/-- Claim C2: in every stop-free run of the producer/consumer system the cursor never exceeds
the queue length, the producer only appends to the queue, and a consumer play step leaves the
queue unchanged while advancing the cursor by one; a wait step changes nothing. -/
theorem sysRun_queue_invariant :
    (∀ evts s, (∀ e ∈ evts, e ≠ SysEvent.stopEvt) → sysRun sysInit evts = some s →
      s.currentIndex ≤ s.queue.length)
    ∧ (∀ evts s s1, (∀ e ∈ evts, e ≠ SysEvent.stopEvt) → sysRun s evts = some s1 →
        ∃ tail, s1.queue = s.queue ++ tail)
    ∧ (∀ s s1, sysStep s SysEvent.consPlay = some s1 →
        s1.queue = s.queue ∧ s1.currentIndex = s.currentIndex + 1)
    ∧ (∀ s s1, sysStep s SysEvent.consWait = some s1 → s1 = s) := by
  refine ⟨?_, ?_, ?_, ?_⟩
  · intro evts s he h
    exact sysRun_inv evts sysInit s he h (by simp [sysInit])
  · intro evts s s1 he h
    exact sysRun_extend evts s s1 he h
  · intro s s1 h
    simp [sysStep] at h
    obtain ⟨-, h3⟩ := h
    subst h3
    simp
  · intro s s1 h
    simp [sysStep] at h
    obtain ⟨-, h3⟩ := h
    exact h3.symm

theorem sysRun_queue_invariant_witness :
    sysRun sysInit [SysEvent.enqueue 5, SysEvent.consPlay, SysEvent.enqueue 6,
        SysEvent.produceDone, SysEvent.consPlay]
      = some { queue := [5, 6], isGenerating := false, currentIndex := 2, isStopped := false }
    ∧ ({ queue := [5, 6], isGenerating := false,
           currentIndex := 2, isStopped := false } : SysState).currentIndex ≤
        ({ queue := [5, 6], isGenerating := false,
           currentIndex := 2, isStopped := false } : SysState).queue.length :=
  ⟨by decide,
   sysRun_queue_invariant.1
     [SysEvent.enqueue 5, SysEvent.consPlay, SysEvent.enqueue 6,
       SysEvent.produceDone, SysEvent.consPlay] _ (by decide) (by decide)⟩

theorem sysRun_stop_cex :
    sysRun sysInit [SysEvent.enqueue 5, SysEvent.consPlay, SysEvent.stopEvt]
      = some { queue := [], isGenerating := false, currentIndex := 1, isStopped := true }
    ∧ ¬ ({ queue := [], isGenerating := false,
             currentIndex := 1, isStopped := true } : SysState).currentIndex ≤
          ({ queue := [], isGenerating := false,
             currentIndex := 1, isStopped := true } : SysState).queue.length := by
  refine ⟨by decide, by decide⟩

/-- Closed form of the assignVoices loop: the output at position i is the
entry at position i processed with the counters accumulated over the
prefix before i. -/
theorem assignVoicesGo_get (pools : VoicePools) (pref : Option String) :
    ∀ (l : List (String × Entry)) (c : Nat × Nat × Nat) (i : Nat),
    (assignVoicesGo pools pref l c).get? i
      = (l.get? i).map (applyEntry pools pref ((l.take i).foldl cntStep c)) := by
  intro l
  induction l with
  | nil => intro c i; simp [assignVoicesGo]
  | cons p rest ih =>
    intro c i
    obtain ⟨name, e⟩ := p
    obtain ⟨m, f, n⟩ := c
    cases i with
    | zero =>
      simp only [List.take_zero, List.foldl_nil, List.get?, Option.map_some']
      simp only [assignVoicesGo, applyEntry]
      split_ifs <;> rfl
    | succ i =>
      have hstep : ∀ c', c' = cntStep (m, f, n) (name, e) →
          (assignVoicesGo pools pref rest c').get? i
            = ((rest.get? i).map
                (applyEntry pools pref ((rest.take i).foldl cntStep
                  (cntStep (m, f, n) (name, e))))) := by
        intro c' hc
        rw [hc, ih]
      simp only [List.take_succ_cons, List.foldl_cons, List.get?]
      simp only [assignVoicesGo]
      split_ifs with h1 h2 h3 h4 h5
      · exact hstep _ (by simp [cntStep, h1])
      · exact hstep _ (by simp [cntStep, h1, h2])
      · exact hstep _ (by simp [cntStep, h1, h2, h3])
      · exact hstep _ (by simp [cntStep, h1, h2, h3, h4])
      · exact hstep _ (by simp [cntStep, h1, h2, h3, h4, h5])
      · exact hstep _ (by simp [cntStep, h1, h2, h3, h4, h5])

/-- Over entries whose gender is male, female or neutral (or that are the
Narrator), the fold of cntStep counts exactly the non-Narrator entries of
each gender. -/
theorem cntStep_counts (l : List (String × Entry)) (c : Nat × Nat × Nat)
    (hg : ∀ p ∈ l, p.1 = "Narrator" ∨ p.2.gender = "male" ∨ p.2.gender = "female"
      ∨ p.2.gender = "neutral") :
    l.foldl cntStep c
      = (c.1 + (l.filter (fun p => (p.1 != "Narrator") && (p.2.gender == "male"))).length,
         c.2.1 + (l.filter (fun p => (p.1 != "Narrator") && (p.2.gender == "female"))).length,
         c.2.2 + (l.filter (fun p => (p.1 != "Narrator") && (p.2.gender == "neutral"))).length) := by
  induction l generalizing c with
  | nil => simp
  | cons p rest ih =>
    obtain ⟨name, e⟩ := p
    obtain ⟨m, f, n⟩ := c
    have hrest : ∀ p ∈ rest, p.1 = "Narrator" ∨ p.2.gender = "male" ∨ p.2.gender = "female"
        ∨ p.2.gender = "neutral" :=
      fun p hp => hg p (List.mem_cons_of_mem _ hp)
    rcases hg (name, e) (List.mem_cons_self _ _) with h | h | h | h
    all_goals dsimp only at h
    · simp only [List.foldl_cons]
      rw [ih _ hrest]
      simp [cntStep, h]
    · by_cases hn : name = "Narrator"
      · simp only [List.foldl_cons]
        rw [ih _ hrest]
        simp [cntStep, hn]
      · simp only [List.foldl_cons]
        rw [ih _ hrest]
        simp [cntStep, hn, h]
        omega
    · by_cases hn : name = "Narrator"
      · simp only [List.foldl_cons]
        rw [ih _ hrest]
        simp [cntStep, hn]
      · simp only [List.foldl_cons]
        rw [ih _ hrest]
        simp [cntStep, hn, h]
        omega
    · by_cases hn : name = "Narrator"
      · simp only [List.foldl_cons]
        rw [ih _ hrest]
        simp [cntStep, hn]
      · simp only [List.foldl_cons]
        rw [ih _ hrest]
        simp [cntStep, hn, h]
        omega

/-- Claim C4: assignVoices serves male and female characters round-robin from their pools by a
running counter, but the counter of a gender also advances on unknown-gender draws from that
pool, and neutral characters share the male-pool alternation counter rather than having a
counter of their own. -/
theorem assignVoices_roundRobin (reg : List (String × Entry)) (pools : VoicePools)
    (pref : Option String)
    (hg : ∀ p ∈ reg, p.1 = "Narrator" ∨ p.2.gender = "male" ∨ p.2.gender = "female"
      ∨ p.2.gender = "neutral")
    (i : Nat) (name : String) (e : Entry)
    (hi : reg.get? i = some (name, e)) (hn : name ≠ "Narrator") :
    (assignVoices reg pools pref).get? i
      = some (name,
          { gender := e.gender,
            voice := (poolFor pools e.gender).get?
              (countPriorGender reg i e.gender % (poolFor pools e.gender).length) }) := by
  have hcnt := cntStep_counts (reg.take i) (0, 0, 0)
    (fun p hp => hg p (List.mem_of_mem_take hp))
  have hmem : (name, e) ∈ reg := List.get?_mem hi
  unfold assignVoices
  rw [assignVoicesGo_get, hi, hcnt]
  rcases hg (name, e) hmem with h | h | h | h
  · exact absurd h hn
  all_goals dsimp only at h
  · simp [applyEntry, hn, h, poolFor, countPriorGender]
  · simp [applyEntry, hn, h, poolFor, countPriorGender]
  · simp [applyEntry, hn, h, poolFor, countPriorGender]

/-- Claim C5: assignVoices alternates unknown-gender characters between the male and female
pools on the parity of a counter, but that counter is the shared neutral counter also advanced
by neutral-gender characters, not a counter dedicated to the alternation. -/
theorem assignVoices_unknown_alternation (reg : List (String × Entry)) (pools : VoicePools)
    (pref : Option String) (i : Nat) (name : String) (e : Entry)
    (hi : reg.get? i = some (name, e)) (hn : name ≠ "Narrator")
    (hu : e.gender = "unknown") :
    (assignVoices reg pools pref).get? i
      = some (name,
          if ((reg.take i).foldl cntStep (0, 0, 0)).2.2 % 2 = 0 then
            { gender := "male?",
              voice := pools.male.get?
                (((reg.take i).foldl cntStep (0, 0, 0)).1 % pools.male.length) }
          else
            { gender := "female?",
              voice := pools.female.get?
                (((reg.take i).foldl cntStep (0, 0, 0)).2.1 % pools.female.length) }) := by
  unfold assignVoices
  rw [assignVoicesGo_get, hi]
  generalize (reg.take i).foldl cntStep (0, 0, 0) = cc
  obtain ⟨m, f, n⟩ := cc
  by_cases hpar : n % 2 = 0
  · simp [applyEntry, hn, hu, hpar]
  · simp [applyEntry, hn, hu, hpar]

/-- Claim C10: after assignVoices no non-Narrator entry keeps gender unknown: each such entry
is overwritten in place with a tagged inferred gender, male? or female?; the Narrator entry
alone is exempt from the overwrite and may retain unknown. -/
theorem assignVoices_no_unknown (reg : List (String × Entry)) (pools : VoicePools)
    (pref : Option String) (i : Nat) (name : String) (e : Entry)
    (hi : reg.get? i = some (name, e)) (hn : name ≠ "Narrator") :
    ∃ e1, (assignVoices reg pools pref).get? i = some (name, e1)
      ∧ e1.gender ≠ "unknown"
      ∧ (e.gender = "unknown" → e1.gender = "male?" ∨ e1.gender = "female?") := by
  unfold assignVoices
  rw [assignVoicesGo_get, hi]
  generalize (reg.take i).foldl cntStep (0, 0, 0) = cc
  obtain ⟨m, f, n⟩ := cc
  by_cases h1 : e.gender = "male"
  · refine ⟨{ gender := e.gender, voice := pools.male.get? (m % pools.male.length) }, ?_, ?_, ?_⟩
    · simp [applyEntry, hn, h1]
    · simp [h1]
    · exact fun hu => absurd (h1.symm.trans hu) (by decide)
  · by_cases h2 : e.gender = "female"
    · refine ⟨{ gender := e.gender,
                voice := pools.female.get? (f % pools.female.length) }, ?_, ?_, ?_⟩
      · simp [applyEntry, hn, h1, h2]
      · simp [h2]
      · exact fun hu => absurd (h2.symm.trans hu) (by decide)
    · by_cases h3 : e.gender = "neutral"
      · refine ⟨{ gender := e.gender,
                  voice := pools.neutral.get? (n % pools.neutral.length) }, ?_, ?_, ?_⟩
        · simp [applyEntry, hn, h1, h2, h3]
        · simp [h3]
        · exact fun hu => absurd (h3.symm.trans hu) (by decide)
      · by_cases hpar : n % 2 = 0
        · refine ⟨{ gender := "male?",
                    voice := pools.male.get? (m % pools.male.length) }, ?_, ?_, ?_⟩
          · simp [applyEntry, hn, h1, h2, h3, hpar]
          · simp
          · exact fun _ => Or.inl rfl
        · refine ⟨{ gender := "female?",
                    voice := pools.female.get? (f % pools.female.length) }, ?_, ?_, ?_⟩
          · simp [applyEntry, hn, h1, h2, h3, hpar]
          · simp
          · exact fun _ => Or.inr rfl

theorem assignVoices_roundRobin_witness :
    (assignVoices regFiveMales getVoicePools none).get? 3
      = some ("D",
          { gender := ({ gender := "male" } : Entry).gender,
            voice := (poolFor getVoicePools ({ gender := "male" } : Entry).gender).get?
              (countPriorGender regFiveMales 3 ({ gender := "male" } : Entry).gender %
                (poolFor getVoicePools ({ gender := "male" } : Entry).gender).length) })
    ∧ (assignVoices regFiveMales getVoicePools none).get? 0
      = some ("A", { gender := "male", voice := some "male_voice_1" })
    ∧ (assignVoices regFiveMales getVoicePools none).get? 3
      = some ("D", { gender := "male", voice := some "male_voice_1" })
    ∧ (assignVoices regFiveMales getVoicePools none).get? 1
      = some ("B", { gender := "male", voice := some "male_voice_2" })
    ∧ (assignVoices regFiveMales getVoicePools none).get? 4
      = some ("E", { gender := "male", voice := some "male_voice_2" }) :=
  ⟨assignVoices_roundRobin regFiveMales getVoicePools none (by decide) 3 "D"
      { gender := "male" } (by decide) (by decide),
   by decide, by decide, by decide, by decide⟩

theorem assignVoices_roundRobin_cex :
    (assignVoices [("U", { gender := "unknown" }), ("M", { gender := "male" })]
        getVoicePools none).get? 1
      = some ("M", { gender := "male", voice := some "male_voice_2" })
    ∧ getVoicePools.male.get? 0 = some "male_voice_1"
    ∧ some "male_voice_2" ≠ some "male_voice_1" :=
  ⟨by decide, by decide, by decide⟩

theorem assignVoices_unknown_alternation_witness :
    (assignVoices regUnknowns getVoicePools none).get? 2
      = some ("U2",
          if ((regUnknowns.take 2).foldl cntStep (0, 0, 0)).2.2 % 2 = 0 then
            { gender := "male?",
              voice := getVoicePools.male.get?
                (((regUnknowns.take 2).foldl cntStep (0, 0, 0)).1 %
                  getVoicePools.male.length) }
          else
            { gender := "female?",
              voice := getVoicePools.female.get?
                (((regUnknowns.take 2).foldl cntStep (0, 0, 0)).2.1 %
                  getVoicePools.female.length) })
    ∧ (assignVoices regUnknowns getVoicePools none).get? 0
      = some ("U1", { gender := "male?", voice := some "male_voice_1" })
    ∧ (assignVoices regUnknowns getVoicePools none).get? 2
      = some ("U2", { gender := "female?", voice := some "female_voice_1" }) :=
  ⟨assignVoices_unknown_alternation regUnknowns getVoicePools none 2 "U2"
      { gender := "unknown" } (by decide) (by decide) (by decide),
   by decide, by decide⟩

theorem assignVoices_unknown_cex :
    (assignVoices [("N1", { gender := "neutral" }), ("U", { gender := "unknown" })]
        getVoicePools none).get? 1
      = some ("U", { gender := "female?", voice := some "female_voice_1" })
    ∧ "female_voice_1" ∉ getVoicePools.male :=
  ⟨by decide, by decide⟩

theorem assignVoices_no_unknown_witness :
    ∃ e1, (assignVoices [("Q", { gender := "unknown" }), ("Narrator", { gender := "neutral" })]
        getVoicePools none).get? 0 = some ("Q", e1)
      ∧ e1.gender ≠ "unknown"
      ∧ (({ gender := "unknown" } : Entry).gender = "unknown" →
          e1.gender = "male?" ∨ e1.gender = "female?") :=
  assignVoices_no_unknown [("Q", { gender := "unknown" }), ("Narrator", { gender := "neutral" })]
    getVoicePools none 0 "Q" { gender := "unknown" } (by decide) (by decide)

theorem assignVoices_narrator_unknown_cex :
    assignVoices [("Narrator", { gender := "unknown" })] getVoicePools none
      = [("Narrator", { gender := "unknown", voice := some "narrator_voice" })]
    ∧ ∃ p ∈ assignVoices [("Narrator", { gender := "unknown" })] getVoicePools none,
        p.2.gender = "unknown" :=
  ⟨by decide, by decide⟩

/-- Claim C9: buildCharacterRegistry appends Narrator to the caller-supplied character list
when absent, leaving the existing elements and their order unchanged, so the caller observes a
list one element longer. -/
theorem buildCharacterRegistry_appends_narrator (ui : String → Option String)
    (l : List String) (ctx : List Char) (h : "Narrator" ∉ l) :
    (buildCharacterRegistry ui l ctx).1 = l ++ ["Narrator"]
    ∧ (buildCharacterRegistry ui l ctx).1.length = l.length + 1
    ∧ (buildCharacterRegistry ui l ctx).1.take l.length = l := by
  refine ⟨?_, ?_, ?_⟩
  · simp [buildCharacterRegistry, h]
  · simp [buildCharacterRegistry, h]
  · simp [buildCharacterRegistry, h, List.take_left]

theorem buildCharacterRegistry_appends_narrator_witness :
    (buildCharacterRegistry (fun _ => none) ["Jack", "Emily"] []).1
      = ["Jack", "Emily"] ++ ["Narrator"]
    ∧ (buildCharacterRegistry (fun _ => none) ["Jack", "Emily"] []).1.length
      = (["Jack", "Emily"] : List String).length + 1
    ∧ (buildCharacterRegistry (fun _ => none) ["Jack", "Emily"] []).1.take
        (["Jack", "Emily"] : List String).length = ["Jack", "Emily"] :=
  buildCharacterRegistry_appends_narrator (fun _ => none) ["Jack", "Emily"] [] (by decide)

/-- The first character of a trimmed text is not whitespace. -/
theorem head?_trim_not (l : List Char) (a : Char) (h : (trim l).head? = some a) :
    isWs a = false := by
  unfold trim at h
  rw [List.head?_reverse] at h
  obtain ⟨u, hu⟩ := List.dropWhile_suffix (l := (l.dropWhile isWs).reverse) isWs
  have h2 : (l.dropWhile isWs).reverse.getLast? = some a := by
    rw [← hu, List.getLast?_append, h]
    rfl
  rw [List.getLast?_reverse] at h2
  have h3 := List.head?_dropWhile_not isWs l
  rw [h2] at h3
  exact h3

/-- The last character of a trimmed text is not whitespace. -/
theorem getLast?_trim_not (l : List Char) (a : Char) (h : (trim l).getLast? = some a) :
    isWs a = false := by
  unfold trim at h
  rw [List.getLast?_reverse] at h
  have h3 := List.head?_dropWhile_not isWs (l.dropWhile isWs).reverse
  rw [h] at h3
  exact h3

/-- Trimming is idempotent. -/
theorem trim_idem (l : List Char) : trim (trim l) = trim l := by
  have h1 : (trim l).dropWhile isWs = trim l := by
    cases hz : trim l with
    | nil => simp
    | cons a t =>
      have ha := head?_trim_not l a (by rw [hz]; rfl)
      simp [List.dropWhile_cons, ha]
  have h2 : ((trim l).reverse).dropWhile isWs = (trim l).reverse := by
    cases hz : (trim l).reverse with
    | nil => simp [hz]
    | cons a t =>
      have ha : (trim l).getLast? = some a := by
        rw [← List.head?_reverse, hz]
        rfl
      have hw := getLast?_trim_not l a ha
      simp [List.dropWhile_cons, hw]
  show (((trim l).dropWhile isWs).reverse.dropWhile isWs).reverse = trim l
  rw [h1, h2, List.reverse_reverse]

/-- filterMap of an outside segment produces exactly the optional
narration block of its trimmed text. -/
theorem filterMap_seg_false (t : List Char) (l : List (Bool × List Char)) :
    ((false, t) :: l).filterMap segBlock = optNarr (trim t) ++ l.filterMap segBlock := by
  by_cases h : trim t = [] <;> simp [segBlock, optNarr, h, List.filterMap_cons]

/-- filterMap of an inside segment produces exactly the optional dialogue
block of its trimmed text. -/
theorem filterMap_seg_true (t : List Char) (l : List (Bool × List Char)) :
    ((true, t) :: l).filterMap segBlock = optDial (trim t) ++ l.filterMap segBlock := by
  by_cases h : trim t = [] <;> simp [segBlock, optDial, h, List.filterMap_cons]

/-- The scanning loop of parseScript agrees with the two-phase reference
decomposition of the same fuel: tag the segments, then trim, drop blanks
and classify. -/
theorem psGo_eq_qsGo (fuel : Nat) : ∀ s, psGo fuel s = (qsGo fuel s).filterMap segBlock := by
  induction fuel with
  | zero => intro s; simp [psGo, qsGo]
  | succ fuel ih =>
    intro s
    simp only [psGo, qsGo]
    rcases h1 : s.dropWhile (fun c => c ≠ '"') with _ | ⟨q, rest1⟩
    · dsimp only
      rw [filterMap_seg_false]
      simp
    · rcases h2 : rest1.dropWhile (fun c => c ≠ '"') with _ | ⟨q2, rest3⟩
      · dsimp only
        rw [h2]
        dsimp only
        rw [filterMap_seg_false]
        simp
      · dsimp only
        rw [h2]
        dsimp only
        rw [filterMap_seg_false, filterMap_seg_true, ih]
        simp

/-- A text that trims to nothing is all whitespace. -/
theorem trim_nil_all_ws (s : List Char) (h : trim s = []) : ∀ c ∈ s, isWs c = true := by
  unfold trim at h
  rw [List.reverse_eq_nil_iff, List.dropWhile_eq_nil_iff] at h
  intro c hc
  have hsplit := List.takeWhile_append_dropWhile (p := isWs) (l := s)
  rw [← hsplit] at hc
  rcases List.mem_append.mp hc with hc1 | hc2
  · exact List.mem_takeWhile_imp hc1
  · exact h c (List.mem_reverse.mpr hc2)

/-- Claim C8: parseScript emits narration and dialogue blocks in strict left-to-right order,
classifying quoted text as dialogue and the rest as narration, trimming each block, dropping
blank spans, returning the empty list on blank input, and treating text after an unterminated
final quote as trailing narration. -/
theorem parseScript_correct (s : List Char) :
    parseScript s = parseScriptRef s
    ∧ (∀ b ∈ parseScript s, b.text ≠ [] ∧ trim b.text = b.text)
    ∧ (trim s = [] → parseScript s = []) := by
  have hmain : parseScript s = parseScriptRef s := by
    by_cases h : trim s = []
    · have hdw : s.dropWhile (fun c => decide (c ≠ '"')) = [] := by
        rw [List.dropWhile_eq_nil_iff]
        intro x hx
        have hws := trim_nil_all_ws s h x hx
        simp only [decide_eq_true_eq]
        intro heq
        subst heq
        simp [isWs] at hws
      have hqs : qsGo (s.length + 1) s = [(false, s)] := by
        simp only [qsGo, hdw]
      rw [parseScript, if_pos h, parseScriptRef, hqs]
      simp [segBlock, h]
    · rw [parseScript, if_neg h, parseScriptRef, psGo_eq_qsGo]
  refine ⟨hmain, ?_, ?_⟩
  · intro b hb
    rw [hmain] at hb
    unfold parseScriptRef at hb
    obtain ⟨⟨q, t⟩, hmem, hsb⟩ := List.mem_filterMap.mp hb
    by_cases ht : trim t = []
    · simp [segBlock, ht] at hsb
    · simp [segBlock, ht] at hsb
      subst hsb
      exact ⟨ht, trim_idem t⟩
  · intro h
    rw [parseScript, if_pos h]

theorem parseScript_correct_witness :
    parseScript ("He said \"hi\" and \"  \" then \"left".toList)
      = parseScriptRef ("He said \"hi\" and \"  \" then \"left".toList)
    ∧ parseScript ("He said \"hi\" and \"  \" then \"left".toList)
      = [{ btype := BType.narration, text := "He said".toList },
         { btype := BType.dialogue, text := "hi".toList },
         { btype := BType.narration, text := "and".toList },
         { btype := BType.narration, text := "then \"left".toList }]
    ∧ parseScript ("   ".toList) = [] :=
  ⟨(parseScript_correct _).1, by decide, (parseScript_correct _).2.2 (by decide)⟩

/-- The speaker-detection loop, started at any position with the
remembered speaker of that position, annotates the block at offset i of
the remaining list with the resolution at its absolute position. -/
theorem dsGo_get (full : List Block) (chars : List (List Char)) :
    ∀ (rest : List Block) (start : Nat), full.drop start = rest → ∀ (i : Nat),
    (dsGo full chars start rest (specLast full chars start)).get? i
      = (rest.get? i).map (fun b =>
          if b.btype = BType.dialogue then
            { b with speaker := some (resolveOne full chars (start + i)
                (specLast full chars (start + i))) }
          else b) := by
  intro rest
  induction rest with
  | nil => intro start hrest i; simp [dsGo]
  | cons b t ih =>
    intro start hrest i
    have hget : full.get? start = some b := by
      have h0 : (full.drop start).get? 0 = some b := by rw [hrest]; rfl
      rwa [List.get?_drop, Nat.add_zero] at h0
    have hdrop : full.drop (start + 1) = t := by
      have h1 : (full.drop start).drop 1 = t := by rw [hrest]; rfl
      rwa [List.drop_drop] at h1
    have hlast : specLast full chars (start + 1)
        = if b.btype = BType.dialogue then
            some (resolveOne full chars start (specLast full chars start))
          else specLast full chars start := by
      show (match full.get? start with
        | some b =>
          if b.btype = BType.dialogue then
            some (resolveOne full chars start (specLast full chars start))
          else specLast full chars start
        | none => specLast full chars start) = _
      rw [hget]
    by_cases hb : b.btype = BType.dialogue
    · have hd : dsGo full chars start (b :: t) (specLast full chars start)
          = { b with speaker := some (resolveOne full chars start
                (specLast full chars start)) }
            :: dsGo full chars (start + 1) t
                (some (resolveOne full chars start (specLast full chars start))) := by
        simp [dsGo, hb]
      rw [hd]
      cases i with
      | zero => simp [hb]
      | succ i =>
        simp only [List.get?_cons_succ]
        have harg : some (resolveOne full chars start (specLast full chars start))
            = specLast full chars (start + 1) := by rw [hlast, if_pos hb]
        rw [harg]
        have := ih (start + 1) hdrop i
        rw [this]
        have hidx : start + 1 + i = start + (i + 1) := by omega
        rw [hidx]
    · have hnar : b.btype = BType.narration := by
        cases hx : b.btype
        · rfl
        · exact absurd hx hb
      have hd : dsGo full chars start (b :: t) (specLast full chars start)
          = b :: dsGo full chars (start + 1) t (specLast full chars start) := by
        simp [dsGo, hnar]
      rw [hd]
      cases i with
      | zero => simp [hb]
      | succ i =>
        simp only [List.get?_cons_succ]
        have harg : specLast full chars start = specLast full chars (start + 1) := by
          rw [hlast, if_neg hb]
        rw [harg]
        have := ih (start + 1) hdrop i
        rw [this]
        have hidx : start + 1 + i = start + (i + 1) := by omega
        rw [hidx]

/-- Claim C3: detectSpeakers resolves each dialogue block from the concatenation of the
narration blocks among the three immediately preceding blocks, choosing the whole-word
occurrence of a known character name with the largest offset, falling back to the previously
resolved speaker and then to Narrator, and records the resolution as the new last speaker. -/
theorem detectSpeakers_resolution (script : List Block) (chars : List (List Char))
    (h0 : chars ≠ []) (hne : ∀ nm ∈ chars, nm ≠ []) (i : Nat) (b : Block)
    (hb : script.get? i = some b) :
    (detectSpeakers script chars).get? i
      = some (if b.btype = BType.dialogue then
          { b with speaker := some (resolveOne script chars i
              (specLast script chars i)) }
        else b) := by
  have hemp : chars.isEmpty = false := by
    cases chars with
    | nil => exact absurd rfl h0
    | cons c t => rfl
  unfold detectSpeakers
  rw [hemp]
  show (dsGo script chars 0 script (specLast script chars 0)).get? i = _
  rw [dsGo_get script chars script 0 (by rfl) i, hb]
  simp

theorem detectSpeakers_resolution_witness :
    (detectSpeakers script3 chars3).get? 2
      = some (if ({ btype := BType.dialogue, text := "Thanks!".toList } : Block).btype
            = BType.dialogue then
          { ({ btype := BType.dialogue, text := "Thanks!".toList } : Block) with
            speaker := some (resolveOne script3 chars3 2 (specLast script3 chars3 2)) }
        else { btype := BType.dialogue, text := "Thanks!".toList })
    ∧ (detectSpeakers script3 chars3).get? 2
      = some { btype := BType.dialogue, text := "Thanks!".toList,
               speaker := some "Lisa".toList }
    ∧ (detectSpeakers script3 chars3).get? 1
      = some { btype := BType.dialogue, text := "Hey everyone!".toList,
               speaker := some "Lisa".toList } :=
  ⟨detectSpeakers_resolution script3 chars3 (by decide) (by decide) 2
      { btype := BType.dialogue, text := "Thanks!".toList } (by decide),
   by decide, by decide⟩

/-- Closed form of the chunk loop of processBlock: successful chunks are
appended to the queue in order, the generated counter advances by the
number of successes, exactly the failing chunks are reported as errors,
and the current block counter is untouched. -/
theorem processChunks_spec {α : Type} (gen : Nat → List Char → Option α) (block : Block)
    (bi total : Nat) :
    ∀ (lst : List (Nat × List Char)) (st : PState α),
    processChunks gen block bi total lst st
      = { queue := st.queue ++ lst.filterMap (fun p => (gen p.1 p.2).map (fun a =>
            { audio := a, voice := block.voice, text := p.2,
              speaker := jsOrElseL block.speaker "Narrator".toList,
              btype := block.btype, blockIndex := bi, chunkIndex := p.1,
              totalChunks := total })),
          generatedCount := st.generatedCount + lst.countP (fun p => (gen p.1 p.2).isSome),
          errors := st.errors
            ++ (lst.filter (fun p => (gen p.1 p.2).isNone)).map (fun p => (bi, p.1)),
          currentBlock := st.currentBlock } := by
  intro lst
  induction lst with
  | nil => intro st; simp [processChunks]
  | cons pr rest ih =>
    intro st
    obtain ⟨i, t⟩ := pr
    rcases hg : gen i t with _ | a
    · simp only [processChunks, hg]
      rw [ih]
      simp [hg, List.filterMap_cons, List.countP_cons, List.filter_cons]
    · simp only [processChunks, hg]
      rw [ih]
      simp [hg, List.filterMap_cons, List.countP_cons, List.filter_cons]
      omega

/-- Claim C6: when exactly one chunk of a block fails generation, processBlock reports one
error, enqueues exactly n-1 items none of which carries the failed chunk index, only appends
to the queue, and still advances to the next block. -/
theorem processBlock_chunk_failure {α : Type} (gen : Nat → List Char → Option α)
    (block : Block) (bi : Nat) (st : PState α)
    (h1 : ((smartSplit block.text 900).enum.filter
        (fun p => (gen p.1 p.2).isNone)).length = 1) :
    (processBlock gen block bi st).queue.length
        = st.queue.length + ((smartSplit block.text 900).length - 1)
    ∧ (processBlock gen block bi st).errors.length = st.errors.length + 1
    ∧ (processBlock gen block bi st).currentBlock = st.currentBlock + 1
    ∧ ∃ newItems, (processBlock gen block bi st).queue = st.queue ++ newItems
        ∧ ∀ q ∈ newItems, ∀ p ∈ (smartSplit block.text 900).enum,
            (gen p.1 p.2).isNone = true → q.chunkIndex ≠ p.1 := by
  have hcnt : (smartSplit block.text 900).enum.countP
      (fun p => (gen p.1 p.2).isNone) = 1 := by
    rw [List.countP_eq_length_filter]
    exact h1
  have key : ∀ (l : List (Nat × List Char)),
      l.countP (fun p => (gen p.1 p.2).isSome)
        + l.countP (fun p => (gen p.1 p.2).isNone) = l.length := by
    intro l
    induction l with
    | nil => rfl
    | cons x t ihh =>
      simp only [List.countP_cons, List.length_cons]
      cases gen x.1 x.2 <;> simp <;> omega
  have hsome : (smartSplit block.text 900).enum.countP
      (fun p => (gen p.1 p.2).isSome) = (smartSplit block.text 900).length - 1 := by
    have htot := key (smartSplit block.text 900).enum
    rw [List.enum_length] at htot
    omega
  unfold processBlock
  dsimp only
  rw [processChunks_spec]
  refine ⟨?_, ?_, ?_, ?_⟩
  · simp only [List.length_append, List.length_filterMap_eq_countP, Option.isSome_map']
    rw [hsome]
  · simp [h1]
  · rfl
  · refine ⟨_, rfl, ?_⟩
    intro q hq p hp hnone
    obtain ⟨pr, hmem, hpr⟩ := List.mem_filterMap.mp hq
    rcases hg : gen pr.1 pr.2 with _ | a
    · rw [hg] at hpr
      simp at hpr
    · rw [hg] at hpr
      simp only [Option.map_some'] at hpr
      obtain rfl := Option.some.inj hpr
      intro hEq
      dsimp only at hEq
      obtain ⟨i1, x1⟩ := pr
      obtain ⟨i2, x2⟩ := p
      dsimp only at hEq hnone hg
      subst hEq
      rw [List.mk_mem_enum_iff_getElem?] at hmem hp
      rw [hmem] at hp
      obtain rfl := Option.some.inj hp
      rw [hg] at hnone
      simp at hnone

/-- One unfolding of the smartSplit loop on a long remaining text. -/
theorem smartSplitGo_step (fuel n : Nat) (hgt : ¬ n ≤ 900) :
    smartSplitGo 900 (fuel + 1) (List.replicate n 'a')
      = trim ((List.replicate n 'a').take
            (chooseSplit ((List.replicate n 'a').take 900) 900))
        :: smartSplitGo 900 fuel (trim ((List.replicate n 'a').drop
            (chooseSplit ((List.replicate n 'a').take 900) 900))) := by
  obtain ⟨k, rfl⟩ : ∃ k, n = k + 1 := ⟨n - 1, by omega⟩
  rw [List.replicate_succ]
  simp only [smartSplitGo]
  rw [if_neg (by simpa using hgt), ← List.replicate_succ]

/-- The final unfolding of the smartSplit loop on a short non-empty
remaining text. -/
theorem smartSplitGo_fin (fuel n : Nat) (hn : n ≠ 0) (hle : n ≤ 900) :
    smartSplitGo 900 (fuel + 1) (List.replicate n 'a') = [List.replicate n 'a'] := by
  obtain ⟨k, rfl⟩ : ∃ k, n = k + 1 := ⟨n - 1, by omega⟩
  rw [List.replicate_succ]
  simp only [smartSplitGo]
  rw [if_pos (by simpa using hle), ← List.replicate_succ]

/-- smartSplit cuts 1850 repeated characters (no natural boundary
anywhere) into hard chunks of 900, 900 and 50. -/
theorem smartSplit_blockThree :
    smartSplit (List.replicate 1850 'a') 900
      = [List.replicate 900 'a', List.replicate 900 'a', List.replicate 50 'a'] := by
  have hc900 : chooseSplit (List.replicate 900 'a') 900 = 900 := by decide
  have htr900 : trim (List.replicate 900 'a') = List.replicate 900 'a' := by decide
  have htr950 : trim (List.replicate 950 'a') = List.replicate 950 'a' := by decide
  have htr50 : trim (List.replicate 50 'a') = List.replicate 50 'a' := by decide
  have hlen : (List.replicate 1850 'a').length = 1850 := by
    rw [List.length_replicate]
  have htk1850 : (List.replicate 1850 'a').take 900 = List.replicate 900 'a' := by
    rw [List.take_replicate]
    norm_num
  have hdr1850 : (List.replicate 1850 'a').drop 900 = List.replicate 950 'a' := by
    rw [List.drop_replicate]
  have htk950 : (List.replicate 950 'a').take 900 = List.replicate 900 'a' := by
    rw [List.take_replicate]
    norm_num
  have hdr950 : (List.replicate 950 'a').drop 900 = List.replicate 50 'a' := by
    rw [List.drop_replicate]
  unfold smartSplit
  rw [hlen, if_neg (by decide)]
  show (smartSplitGo 900 (1850 + 1) (List.replicate 1850 'a')).filter (fun c => c ≠ [])
    = _
  rw [smartSplitGo_step 1850 1850 (by decide), htk1850, hc900, htk1850, hdr1850,
    htr900, htr950]
  rw [show (1850 : Nat) = 1849 + 1 from by norm_num]
  rw [smartSplitGo_step 1849 950 (by decide), htk950, hc900, htk950, hdr950,
    htr900, htr50]
  rw [show (1849 : Nat) = 1848 + 1 from by norm_num]
  rw [smartSplitGo_fin 1848 50 (by decide) (by decide)]
  decide

theorem processBlock_chunk_failure_witness :
    ((smartSplit blockThree.text 900).enum.filter
        (fun p => (genFailSecond p.1 p.2).isNone)).length = 1
    ∧ (processBlock genFailSecond blockThree 0 stEmpty).queue.length
        = stEmpty.queue.length + ((smartSplit blockThree.text 900).length - 1)
    ∧ (processBlock genFailSecond blockThree 0 stEmpty).errors.length
        = stEmpty.errors.length + 1
    ∧ (processBlock genFailSecond blockThree 0 stEmpty).queue.length = 2
    ∧ (processBlock genFailSecond blockThree 0 stEmpty).errors = [(0, 1)]
    ∧ (runLoop (fun _ => true)
          { queue := (processBlock genFailSecond blockThree 0 stEmpty).queue,
            isGenerating := false } 10
          { isStopped := false, currentIndex := 0 } []).map
        (fun r => (r.1.currentIndex, r.2.length, r.2.all (fun pr => pr.2)))
      = some (2, 2, true) := by
  have htext : blockThree.text = List.replicate 1850 'a' := rfl
  have h1fact : ((smartSplit blockThree.text 900).enum.filter
      (fun p => (genFailSecond p.1 p.2).isNone)).length = 1 := by
    rw [htext, smartSplit_blockThree]
    decide
  have happ := processBlock_chunk_failure genFailSecond blockThree 0 stEmpty h1fact
  have hres : processBlock genFailSecond blockThree 0 stEmpty
      = { queue := [qItemA, qItemB], generatedCount := 2, errors := [(0, 1)],
          currentBlock := 1 } := by
    unfold processBlock
    rw [htext, smartSplit_blockThree]
    decide
  refine ⟨h1fact, happ.1, happ.2.1, ?_, ?_, ?_⟩
  · rw [hres]
    rfl
  · rw [hres]
  · rw [hres]
    decide

/-- A non-empty pattern that occurs at position i fits inside the list. -/
theorem occursAt_fits (pat l : List Char) (i : Nat) (hp : pat ≠ [])
    (h : occursAt pat l i) : i + pat.length ≤ l.length := by
  unfold occursAt listStarts at h
  rw [beq_iff_eq] at h
  have hlen : min pat.length (l.length - i) = pat.length := by
    have h2 := congrArg List.length h
    simpa [List.length_take, List.length_drop] using h2
  have hp1 : 1 ≤ pat.length := by
    cases pat with
    | nil => exact absurd rfl hp
    | cons c t => simp
  have h3 : pat.length ≤ l.length - i := by
    rcases Nat.le_total pat.length (l.length - i) with hh | hh
    · exact hh
    · rw [Nat.min_eq_right hh] at hlen
      omega
  omega

/-- A run of the lastIdx scan that returns nothing saw no occurrence and
started with an empty accumulator (for non-empty patterns). -/
theorem lastIdxGo_none (pat : List Char) (hp : pat ≠ []) :
    ∀ (x : List Char) (i0 : Nat) (acc : Option Nat),
    lastIdxGo pat i0 x acc = none → acc = none ∧ ∀ j, ¬ occursAt pat x j := by
  intro x
  induction x with
  | nil =>
    intro i0 acc h
    refine ⟨h, fun j hj => ?_⟩
    unfold occursAt listStarts at hj
    rw [beq_iff_eq] at hj
    simp at hj
    exact hp hj
  | cons c t ih =>
    intro i0 acc h
    rw [lastIdxGo] at h
    obtain ⟨hacc, hno⟩ := ih (i0 + 1) _ h
    have hstart : listStarts pat (c :: t) = false := by
      by_cases hs : listStarts pat (c :: t)
      · rw [if_pos hs] at hacc
        exact absurd hacc (by simp)
      · simpa using hs
    rw [hstart] at hacc
    simp at hacc
    refine ⟨hacc, fun j hj => ?_⟩
    cases j with
    | zero =>
      unfold occursAt at hj
      rw [List.drop_zero] at hj
      rw [hstart] at hj
      exact absurd hj (by simp)
    | succ j =>
      unfold occursAt at hj
      rw [List.drop_succ_cons] at hj
      exact hno j hj

/-- A result of the lastIdx scan is at least the start position unless it
came from the accumulator. -/
theorem lastIdxGo_ge (pat : List Char) :
    ∀ (x : List Char) (i0 : Nat) (acc : Option Nat) (k : Nat),
    lastIdxGo pat i0 x acc = some k → acc = some k ∨ i0 ≤ k := by
  intro x
  induction x with
  | nil => intro i0 acc k h; exact Or.inl h
  | cons c t ih =>
    intro i0 acc k h
    rw [lastIdxGo] at h
    rcases ih (i0 + 1) _ k h with hacc | hge
    · by_cases hs : listStarts pat (c :: t)
      · rw [if_pos hs] at hacc
        right
        obtain rfl := Option.some.inj hacc
        exact Nat.le_refl _
      · rw [if_neg hs] at hacc
        exact Or.inl hacc
    · right
      omega

/-- Any occurrence seen by the lastIdx scan is bounded by its result. -/
theorem lastIdxGo_max (pat : List Char) (hp : pat ≠ []) :
    ∀ (x : List Char) (i0 : Nat) (acc : Option Nat) (k : Nat),
    lastIdxGo pat i0 x acc = some k → ∀ j, occursAt pat x j → i0 + j ≤ k := by
  intro x
  induction x with
  | nil =>
    intro i0 acc k h j hj
    unfold occursAt listStarts at hj
    rw [beq_iff_eq] at hj
    simp at hj
    exact absurd hj hp
  | cons c t ih =>
    intro i0 acc k h j hj
    rw [lastIdxGo] at h
    cases j with
    | zero =>
      unfold occursAt at hj
      rw [List.drop_zero] at hj
      have hstep : lastIdxGo pat (i0 + 1) t (some i0) = some k := by
        rwa [if_pos hj] at h
      rcases lastIdxGo_ge pat t (i0 + 1) (some i0) k hstep with hacc | hge
      · obtain rfl := Option.some.inj hacc
        omega
      · omega
    | succ j =>
      unfold occursAt at hj
      rw [List.drop_succ_cons] at hj
      have := ih (i0 + 1) _ k h j hj
      omega

/-- The lastIdx scan result is a real occurrence unless it came from the
accumulator. -/
theorem lastIdxGo_occurs (pat : List Char) :
    ∀ (x : List Char) (i0 : Nat) (acc : Option Nat) (k : Nat),
    lastIdxGo pat i0 x acc = some k →
    acc = some k ∨ (i0 ≤ k ∧ occursAt pat x (k - i0)) := by
  intro x
  induction x with
  | nil => intro i0 acc k h; exact Or.inl h
  | cons c t ih =>
    intro i0 acc k h
    rw [lastIdxGo] at h
    rcases ih (i0 + 1) _ k h with hacc | ⟨hge, hocc⟩
    · by_cases hs : listStarts pat (c :: t)
      · rw [if_pos hs] at hacc
        obtain rfl := Option.some.inj hacc
        right
        refine ⟨Nat.le_refl _, ?_⟩
        unfold occursAt
        rw [Nat.sub_self, List.drop_zero]
        exact hs
      · rw [if_neg hs] at hacc
        exact Or.inl hacc
    · right
      refine ⟨by omega, ?_⟩
      unfold occursAt at hocc ⊢
      have hk : k - i0 = (k - (i0 + 1)) + 1 := by omega
      rw [hk, List.drop_succ_cons]
      exact hocc

/-- lastIndexOf finds nothing exactly when the (non-empty) pattern never
occurs. -/
theorem lastIdx_none (pat l : List Char) (hp : pat ≠ [])
    (h : lastIdx pat l = none) : ∀ j, ¬ occursAt pat l j :=
  (lastIdxGo_none pat hp l 0 none h).2

/-- lastIndexOf bounds every occurrence of the pattern. -/
theorem lastIdx_max (pat l : List Char) (hp : pat ≠ []) (k : Nat)
    (h : lastIdx pat l = some k) : ∀ j, occursAt pat l j → j ≤ k := by
  intro j hj
  have := lastIdxGo_max pat hp l 0 none k h j hj
  omega

/-- lastIndexOf returns a real occurrence. -/
theorem lastIdx_occurs (pat l : List Char) (k : Nat)
    (h : lastIdx pat l = some k) : occursAt pat l k := by
  rcases lastIdxGo_occurs pat l 0 none k h with hacc | ⟨-, hocc⟩
  · exact absurd hacc (by simp)
  · simpa using hocc

/-- Taking as many elements as takeWhile keeps yields takeWhile. -/
theorem take_takeWhile_len (p : Char → Bool) :
    ∀ (l : List Char), l.take (l.takeWhile p).length = l.takeWhile p := by
  intro l
  induction l with
  | nil => rfl
  | cons c t ih =>
    by_cases hc : p c
    · simp only [List.takeWhile_cons, hc, if_true, List.length_cons, List.take_succ_cons]
      rw [ih]
    · simp [List.takeWhile_cons, hc]

/-- Every sentence match of the scan is a non-empty string occurring in
the chunk at its recorded position. -/
theorem sentMatchesGo_occurs (chunk : List Char) :
    ∀ (fuel i0 : Nat) (x : List Char), x = chunk.drop i0 →
    ∀ pr ∈ sentMatchesGo fuel i0 x, occursAt pr.2 chunk pr.1 ∧ pr.2 ≠ [] := by
  intro fuel
  induction fuel with
  | zero => intro i0 x hx pr hpr; simp [sentMatchesGo] at hpr
  | succ fuel ih =>
    intro i0 x hx pr hpr
    match x, hx with
    | [], hx => simp [sentMatchesGo] at hpr
    | c :: t, hx =>
      have hdrop1 : chunk.drop (i0 + 1) = t := by
        have h1 : (chunk.drop i0).drop 1 = t := by rw [← hx]; rfl
        rwa [List.drop_drop] at h1
      rw [sentMatchesGo] at hpr
      by_cases hc : (c = '.' || c = '!' || c = '?') = true
      · rw [if_pos hc] at hpr
        by_cases hw : (t.takeWhile isWs).length > 0
        · rw [if_pos hw] at hpr
          rcases hd : t.drop (t.takeWhile isWs).length with _ | ⟨d, r⟩
          · rw [hd] at hpr
            exact ih (i0 + 1) t hdrop1.symm pr hpr
          · rw [hd] at hpr
            dsimp only at hpr
            by_cases hu : isUpperA d = true
            · rw [if_pos hu] at hpr
              have hdrop2 : chunk.drop (i0 + 1 + (t.takeWhile isWs).length)
                  = t.drop (t.takeWhile isWs).length := by
                have h2 : (chunk.drop (i0 + 1)).drop (t.takeWhile isWs).length
                    = t.drop (t.takeWhile isWs).length := by rw [hdrop1]
                rwa [List.drop_drop] at h2
              rcases List.mem_cons.mp hpr with rfl | hmem
              · constructor
                · unfold occursAt listStarts
                  rw [← hx]
                  rw [beq_iff_eq]
                  simp only [List.length_cons, List.take_succ_cons]
                  rw [take_takeWhile_len]
                · simp
              · exact ih (i0 + 1 + (t.takeWhile isWs).length) _
                  (by rw [hdrop2, hd]) pr hmem
            · rw [if_neg hu] at hpr
              exact ih (i0 + 1) t hdrop1.symm pr hpr
        · rw [if_neg hw] at hpr
          exact ih (i0 + 1) t hdrop1.symm pr hpr
      · rw [if_neg hc] at hpr
        exact ih (i0 + 1) t hdrop1.symm pr hpr

/-- Every recorded sentence match position is at least the scan start. -/
theorem sentMatchesGo_ge :
    ∀ (fuel i0 : Nat) (x : List Char), ∀ pr ∈ sentMatchesGo fuel i0 x, i0 ≤ pr.1 := by
  intro fuel
  induction fuel with
  | zero => intro i0 x pr hpr; simp [sentMatchesGo] at hpr
  | succ fuel ih =>
    intro i0 x pr hpr
    match x with
    | [] => simp [sentMatchesGo] at hpr
    | c :: t =>
      rw [sentMatchesGo] at hpr
      by_cases hc : (c = '.' || c = '!' || c = '?') = true
      · rw [if_pos hc] at hpr
        by_cases hw : (t.takeWhile isWs).length > 0
        · rw [if_pos hw] at hpr
          rcases hd : t.drop (t.takeWhile isWs).length with _ | ⟨d, r⟩
          · rw [hd] at hpr
            have := ih (i0 + 1) t pr hpr
            omega
          · rw [hd] at hpr
            dsimp only at hpr
            by_cases hu : isUpperA d = true
            · rw [if_pos hu] at hpr
              rcases List.mem_cons.mp hpr with rfl | hmem
              · exact Nat.le_refl _
              · have := ih (i0 + 1 + (t.takeWhile isWs).length) (d :: r) pr hmem
                omega
            · rw [if_neg hu] at hpr
              have := ih (i0 + 1) t pr hpr
              omega
        · rw [if_neg hw] at hpr
          have := ih (i0 + 1) t pr hpr
          omega
      · rw [if_neg hc] at hpr
        have := ih (i0 + 1) t pr hpr
        omega

/-- Every recorded sentence match position is bounded by the position of
the last match. -/
theorem sentMatchesGo_le_last :
    ∀ (fuel i0 : Nat) (x : List Char) (lastPr : Nat × List Char),
    (sentMatchesGo fuel i0 x).getLast? = some lastPr →
    ∀ pr ∈ sentMatchesGo fuel i0 x, pr.1 ≤ lastPr.1 := by
  intro fuel
  induction fuel with
  | zero => intro i0 x lastPr hl pr hpr; simp [sentMatchesGo] at hpr
  | succ fuel ih =>
    intro i0 x lastPr hl pr hpr
    match x with
    | [] => simp [sentMatchesGo] at hpr
    | c :: t =>
      rw [sentMatchesGo] at hpr hl
      by_cases hc : (c = '.' || c = '!' || c = '?') = true
      · rw [if_pos hc] at hpr hl
        by_cases hw : (t.takeWhile isWs).length > 0
        · rw [if_pos hw] at hpr hl
          rcases hd : t.drop (t.takeWhile isWs).length with _ | ⟨d, r⟩
          · rw [hd] at hpr hl
            exact ih (i0 + 1) t lastPr hl pr hpr
          · rw [hd] at hpr hl
            dsimp only at hpr hl
            by_cases hu : isUpperA d = true
            · rw [if_pos hu] at hpr hl
              rcases hr : sentMatchesGo fuel (i0 + 1 + (t.takeWhile isWs).length) (d :: r)
                with _ | ⟨b, rb⟩
              · rw [hr] at hpr hl
                simp at hl
                rcases List.mem_cons.mp hpr with rfl | hmem
                · rw [← hl]
                · simp at hmem
              · rw [hr] at hpr hl
                rw [List.getLast?_cons_cons] at hl
                have hlmem : lastPr ∈ b :: rb := by
                  rw [← hr]
                  rw [hr]
                  exact List.mem_of_getLast?_eq_some hl
                rcases List.mem_cons.mp hpr with rfl | hmem
                · have h1 := sentMatchesGo_ge fuel (i0 + 1 + (t.takeWhile isWs).length)
                    (d :: r) lastPr (hr ▸ hlmem)
                  omega
                · exact ih (i0 + 1 + (t.takeWhile isWs).length) (d :: r) lastPr
                    (hr ▸ hl) pr (hr ▸ hmem)
            · rw [if_neg hu] at hpr hl
              exact ih (i0 + 1) t lastPr hl pr hpr
        · rw [if_neg hw] at hpr hl
          exact ih (i0 + 1) t lastPr hl pr hpr
      · rw [if_neg hc] at hpr hl
        exact ih (i0 + 1) t lastPr hl pr hpr

/-- Every punctuation match of the scan is a non-empty string occurring
in the chunk at its recorded position. -/
theorem punctMatchesGo_occurs (chunk : List Char) :
    ∀ (fuel i0 : Nat) (x : List Char), x = chunk.drop i0 →
    ∀ pr ∈ punctMatchesGo fuel i0 x, occursAt pr.2 chunk pr.1 ∧ pr.2 ≠ [] := by
  intro fuel
  induction fuel with
  | zero => intro i0 x hx pr hpr; simp [punctMatchesGo] at hpr
  | succ fuel ih =>
    intro i0 x hx pr hpr
    match x, hx with
    | [], hx => simp [punctMatchesGo] at hpr
    | [c], hx => simp [punctMatchesGo] at hpr
    | c :: d :: t, hx =>
      have hdrop1 : chunk.drop (i0 + 1) = d :: t := by
        have h1 : (chunk.drop i0).drop 1 = d :: t := by rw [← hx]; rfl
        rwa [List.drop_drop] at h1
      have hdrop2 : chunk.drop (i0 + 2) = t := by
        have h1 : (chunk.drop i0).drop 2 = t := by rw [← hx]; rfl
        rwa [List.drop_drop] at h1
      rw [punctMatchesGo] at hpr
      by_cases hc : ((c = ',' || c = ';') && isWs d) = true
      · rw [if_pos hc] at hpr
        rcases List.mem_cons.mp hpr with rfl | hmem
        · refine ⟨?_, by simp⟩
          unfold occursAt listStarts
          rw [← hx, beq_iff_eq]
          rfl
        · exact ih (i0 + 2) t hdrop2.symm pr hmem
      · rw [if_neg hc] at hpr
        exact ih (i0 + 1) (d :: t) hdrop1.symm pr hpr

/-- Every recorded punctuation match position is at least the scan
start. -/
theorem punctMatchesGo_ge :
    ∀ (fuel i0 : Nat) (x : List Char), ∀ pr ∈ punctMatchesGo fuel i0 x, i0 ≤ pr.1 := by
  intro fuel
  induction fuel with
  | zero => intro i0 x pr hpr; simp [punctMatchesGo] at hpr
  | succ fuel ih =>
    intro i0 x pr hpr
    match x with
    | [] => simp [punctMatchesGo] at hpr
    | [c] => simp [punctMatchesGo] at hpr
    | c :: d :: t =>
      rw [punctMatchesGo] at hpr
      by_cases hc : ((c = ',' || c = ';') && isWs d) = true
      · rw [if_pos hc] at hpr
        rcases List.mem_cons.mp hpr with rfl | hmem
        · exact Nat.le_refl _
        · have := ih (i0 + 2) t pr hmem
          omega
      · rw [if_neg hc] at hpr
        have := ih (i0 + 1) (d :: t) pr hpr
        omega

/-- Every recorded punctuation match position is bounded by the position
of the last match. -/
theorem punctMatchesGo_le_last :
    ∀ (fuel i0 : Nat) (x : List Char) (lastPr : Nat × List Char),
    (punctMatchesGo fuel i0 x).getLast? = some lastPr →
    ∀ pr ∈ punctMatchesGo fuel i0 x, pr.1 ≤ lastPr.1 := by
  intro fuel
  induction fuel with
  | zero => intro i0 x lastPr hl pr hpr; simp [punctMatchesGo] at hpr
  | succ fuel ih =>
    intro i0 x lastPr hl pr hpr
    match x with
    | [] => simp [punctMatchesGo] at hpr
    | [c] => simp [punctMatchesGo] at hpr
    | c :: d :: t =>
      rw [punctMatchesGo] at hpr hl
      by_cases hc : ((c = ',' || c = ';') && isWs d) = true
      · rw [if_pos hc] at hpr hl
        rcases hr : punctMatchesGo fuel (i0 + 2) t with _ | ⟨b, rb⟩
        · rw [hr] at hpr hl
          simp at hl
          rcases List.mem_cons.mp hpr with rfl | hmem
          · rw [← hl]
          · simp at hmem
        · rw [hr] at hpr hl
          rw [List.getLast?_cons_cons] at hl
          have hlmem : lastPr ∈ b :: rb := List.mem_of_getLast?_eq_some hl
          rcases List.mem_cons.mp hpr with rfl | hmem
          · have h1 := punctMatchesGo_ge fuel (i0 + 2) t lastPr (hr ▸ hlmem)
            omega
          · exact ih (i0 + 2) t lastPr (hr ▸ hl) pr (hr ▸ hmem)
      · rw [if_neg hc] at hpr hl
        exact ih (i0 + 1) (d :: t) lastPr hl pr hpr

/-- The trimmed text is no longer than the original. -/
theorem trim_length_le (l : List Char) : (trim l).length ≤ l.length := by
  unfold trim
  calc ((l.dropWhile isWs).reverse.dropWhile isWs).reverse.length
      = ((l.dropWhile isWs).reverse.dropWhile isWs).length := List.length_reverse _
    _ ≤ (l.dropWhile isWs).reverse.length := (List.dropWhile_sublist _).length_le
    _ = (l.dropWhile isWs).length := List.length_reverse _
    _ ≤ l.length := (List.dropWhile_sublist _).length_le

/-- An accepted sentence candidate fits inside the chunk. -/
theorem sentCandidate_le (chunk : List Char) (m : Nat) (hlen : chunk.length ≤ m)
    (k : Nat) (hx : sentCandidate chunk m = some k) : k ≤ m := by
  unfold sentCandidate at hx
  rcases hgl : (sentMatches chunk).getLast? with _ | lastPr
  · rw [hgl] at hx; exact absurd hx (by simp)
  rw [hgl] at hx
  dsimp only at hx
  have hlmem : lastPr ∈ sentMatches chunk := List.mem_of_getLast?_eq_some hgl
  have hocc := sentMatchesGo_occurs chunk (chunk.length + 1) 0 chunk
    (List.drop_zero chunk).symm lastPr hlmem
  rcases hli : lastIdx lastPr.2 chunk with _ | ls
  · rw [hli] at hx; exact absurd hx (by simp)
  rw [hli] at hx
  dsimp only at hx
  by_cases hcond : 2 * ls > m
  · rw [if_pos hcond] at hx
    obtain rfl := Option.some.inj hx
    have hfit := occursAt_fits lastPr.2 chunk ls hocc.2
      (lastIdx_occurs lastPr.2 chunk ls hli)
    omega
  · rw [if_neg hcond] at hx; exact absurd hx (by simp)

/-- An accepted punctuation candidate fits inside the chunk. -/
theorem punctCandidate_le (chunk : List Char) (m : Nat) (hlen : chunk.length ≤ m)
    (k : Nat) (hx : punctCandidate chunk m = some k) : k ≤ m := by
  unfold punctCandidate at hx
  rcases hgl : (punctMatches chunk).getLast? with _ | lastPr
  · rw [hgl] at hx; exact absurd hx (by simp)
  rw [hgl] at hx
  dsimp only at hx
  have hlmem : lastPr ∈ punctMatches chunk := List.mem_of_getLast?_eq_some hgl
  have hocc := punctMatchesGo_occurs chunk (chunk.length + 1) 0 chunk
    (List.drop_zero chunk).symm lastPr hlmem
  rcases hli : lastIdx lastPr.2 chunk with _ | lp
  · rw [hli] at hx; exact absurd hx (by simp)
  rw [hli] at hx
  dsimp only at hx
  by_cases hcond : 2 * lp > m
  · rw [if_pos hcond] at hx
    obtain rfl := Option.some.inj hx
    have hfit := occursAt_fits lastPr.2 chunk lp hocc.2
      (lastIdx_occurs lastPr.2 chunk lp hli)
    omega
  · rw [if_neg hcond] at hx; exact absurd hx (by simp)

/-- An accepted gap candidate lies inside the chunk. -/
theorem gapCandidate_le (pat chunk : List Char) (m : Nat) (hp : pat ≠ [])
    (hlen : chunk.length ≤ m) (k : Nat) (hx : gapCandidate pat chunk m = some k) :
    k ≤ m := by
  unfold gapCandidate at hx
  rcases hli : lastIdx pat chunk with _ | i
  · rw [hli] at hx; exact absurd hx (by simp)
  rw [hli] at hx
  dsimp only at hx
  by_cases hcond : 2 * i < m
  · rw [if_pos hcond] at hx; exact absurd hx (by simp)
  · rw [if_neg hcond] at hx
    obtain rfl := Option.some.inj hx
    have hfit := occursAt_fits pat chunk i hp (lastIdx_occurs pat chunk i hli)
    have hp1 : 1 ≤ pat.length := by
      cases pat with
      | nil => exact absurd rfl hp
      | cons c t => simp
    omega

/-- The chosen split point never exceeds the limit when the chunk fits
the limit. -/
theorem chooseSplit_le (chunk : List Char) (m : Nat) (hlen : chunk.length ≤ m) :
    chooseSplit chunk m ≤ m := by
  unfold chooseSplit
  rcases hx1 : sentCandidate chunk m with _ | k
  · dsimp only
    rcases hx2 : gapCandidate ['\n', '\n'] chunk m with _ | k
    · dsimp only
      rcases hx3 : gapCandidate ['\n'] chunk m with _ | k
      · dsimp only
        rcases hx4 : punctCandidate chunk m with _ | k
        · dsimp only
          rcases hx5 : lastIdx [' '] chunk with _ | i
          · exact Nat.le_refl m
          · dsimp only
            have hfit := occursAt_fits [' '] chunk i (by simp)
              (lastIdx_occurs [' '] chunk i hx5)
            simp at hfit
            omega
        · dsimp only
          exact punctCandidate_le chunk m hlen k hx4
      · dsimp only
        exact gapCandidate_le ['\n'] chunk m (by simp) hlen k hx3
    · dsimp only
      exact gapCandidate_le ['\n', '\n'] chunk m (by simp) hlen k hx2
  · dsimp only
    exact sentCandidate_le chunk m hlen k hx1

/-- A gap candidate that was rejected leaves no occurrence at or past
half the limit. -/
theorem gapCandidate_none (pat chunk : List Char) (m : Nat) (hp : pat ≠ [])
    (hnone : gapCandidate pat chunk m = none) :
    ∀ i, occursAt pat chunk i → 2 * i < m := by
  intro i hi
  unfold gapCandidate at hnone
  rcases hli : lastIdx pat chunk with _ | k
  · exact absurd hi (lastIdx_none pat chunk hp hli i)
  · rw [hli] at hnone
    dsimp only at hnone
    by_cases hcond : 2 * k < m
    · have := lastIdx_max pat chunk hp k hli i hi
      omega
    · rw [if_neg hcond] at hnone
      exact absurd hnone (by simp)

/-- A sentence candidate that was rejected leaves every sentence match
at or before half the limit. -/
theorem sentCandidate_none (chunk : List Char) (m : Nat)
    (hnone : sentCandidate chunk m = none) :
    ∀ pr ∈ sentMatches chunk, 2 * pr.1 ≤ m := by
  intro pr hpr
  unfold sentCandidate at hnone
  rcases hgl : (sentMatches chunk).getLast? with _ | lastPr
  · rw [List.getLast?_eq_none_iff] at hgl
    rw [hgl] at hpr
    simp at hpr
  rw [hgl] at hnone
  dsimp only at hnone
  have hlmem : lastPr ∈ sentMatches chunk := List.mem_of_getLast?_eq_some hgl
  have hocc := sentMatchesGo_occurs chunk (chunk.length + 1) 0 chunk
    (List.drop_zero chunk).symm lastPr hlmem
  rcases hli : lastIdx lastPr.2 chunk with _ | ls
  · exact absurd hocc.1 (lastIdx_none lastPr.2 chunk hocc.2 hli lastPr.1)
  rw [hli] at hnone
  dsimp only at hnone
  by_cases hcond : 2 * ls > m
  · rw [if_pos hcond] at hnone
    exact absurd hnone (by simp)
  · have hple := sentMatchesGo_le_last (chunk.length + 1) 0 chunk lastPr hgl pr hpr
    have hlle : lastPr.1 ≤ ls := lastIdx_max lastPr.2 chunk hocc.2 ls hli lastPr.1 hocc.1
    omega

/-- A punctuation candidate that was rejected leaves every
comma/semicolon match at or before half the limit. -/
theorem punctCandidate_none (chunk : List Char) (m : Nat)
    (hnone : punctCandidate chunk m = none) :
    ∀ pr ∈ punctMatches chunk, 2 * pr.1 ≤ m := by
  intro pr hpr
  unfold punctCandidate at hnone
  rcases hgl : (punctMatches chunk).getLast? with _ | lastPr
  · rw [List.getLast?_eq_none_iff] at hgl
    rw [hgl] at hpr
    simp at hpr
  rw [hgl] at hnone
  dsimp only at hnone
  have hlmem : lastPr ∈ punctMatches chunk := List.mem_of_getLast?_eq_some hgl
  have hocc := punctMatchesGo_occurs chunk (chunk.length + 1) 0 chunk
    (List.drop_zero chunk).symm lastPr hlmem
  rcases hli : lastIdx lastPr.2 chunk with _ | lp
  · exact absurd hocc.1 (lastIdx_none lastPr.2 chunk hocc.2 hli lastPr.1)
  rw [hli] at hnone
  dsimp only at hnone
  by_cases hcond : 2 * lp > m
  · rw [if_pos hcond] at hnone
    exact absurd hnone (by simp)
  · have hple := punctMatchesGo_le_last (chunk.length + 1) 0 chunk lastPr hgl pr hpr
    have hlle : lastPr.1 ≤ lp := lastIdx_max lastPr.2 chunk hocc.2 lp hli lastPr.1 hocc.1
    omega

/-- A split point strictly before half the limit is chosen only when no
preferred boundary qualifies. -/
theorem chooseSplit_early (chunk : List Char) (m : Nat)
    (h : 2 * chooseSplit chunk m < m) : noQualifyingBoundary chunk m := by
  have hs1 : sentCandidate chunk m = none := by
    rcases hx : sentCandidate chunk m with _ | k
    · rfl
    · exfalso
      have hcs : chooseSplit chunk m = k := by
        unfold chooseSplit
        rw [hx]
      rw [hcs] at h
      unfold sentCandidate at hx
      rcases hgl : (sentMatches chunk).getLast? with _ | pr
      · rw [hgl] at hx
        exact absurd hx (by simp)
      rw [hgl] at hx
      dsimp only at hx
      rcases hli : lastIdx pr.2 chunk with _ | ls
      · rw [hli] at hx
        exact absurd hx (by simp)
      rw [hli] at hx
      dsimp only at hx
      by_cases hcond : 2 * ls > m
      · rw [if_pos hcond] at hx
        have hk := Option.some.inj hx
        omega
      · rw [if_neg hcond] at hx
        exact absurd hx (by simp)
  have hg2 : gapCandidate ['\n', '\n'] chunk m = none := by
    rcases hx : gapCandidate ['\n', '\n'] chunk m with _ | k
    · rfl
    · exfalso
      have hcs : chooseSplit chunk m = k := by
        unfold chooseSplit
        rw [hs1, hx]
      rw [hcs] at h
      unfold gapCandidate at hx
      rcases hli : lastIdx ['\n', '\n'] chunk with _ | i
      · rw [hli] at hx
        exact absurd hx (by simp)
      rw [hli] at hx
      dsimp only at hx
      by_cases hcond : 2 * i < m
      · rw [if_pos hcond] at hx
        exact absurd hx (by simp)
      · rw [if_neg hcond] at hx
        have hk := Option.some.inj hx
        omega
  have hg3 : gapCandidate ['\n'] chunk m = none := by
    rcases hx : gapCandidate ['\n'] chunk m with _ | k
    · rfl
    · exfalso
      have hcs : chooseSplit chunk m = k := by
        unfold chooseSplit
        rw [hs1, hg2, hx]
      rw [hcs] at h
      unfold gapCandidate at hx
      rcases hli : lastIdx ['\n'] chunk with _ | i
      · rw [hli] at hx
        exact absurd hx (by simp)
      rw [hli] at hx
      dsimp only at hx
      by_cases hcond : 2 * i < m
      · rw [if_pos hcond] at hx
        exact absurd hx (by simp)
      · rw [if_neg hcond] at hx
        have hk := Option.some.inj hx
        omega
  have hp4 : punctCandidate chunk m = none := by
    rcases hx : punctCandidate chunk m with _ | k
    · rfl
    · exfalso
      have hcs : chooseSplit chunk m = k := by
        unfold chooseSplit
        rw [hs1, hg2, hg3, hx]
      rw [hcs] at h
      unfold punctCandidate at hx
      rcases hgl : (punctMatches chunk).getLast? with _ | pr
      · rw [hgl] at hx
        exact absurd hx (by simp)
      rw [hgl] at hx
      dsimp only at hx
      rcases hli : lastIdx pr.2 chunk with _ | lp
      · rw [hli] at hx
        exact absurd hx (by simp)
      rw [hli] at hx
      dsimp only at hx
      by_cases hcond : 2 * lp > m
      · rw [if_pos hcond] at hx
        have hk := Option.some.inj hx
        omega
      · rw [if_neg hcond] at hx
        exact absurd hx (by simp)
  have hsp : ∀ i, occursAt [' '] chunk i → 2 * i < m := by
    intro i hi
    rcases hli : lastIdx [' '] chunk with _ | j
    · have hveq : chooseSplit chunk m = m := by
        unfold chooseSplit
        rw [hs1, hg2, hg3, hp4, hli]
      rw [hveq] at h
      omega
    · have hveq : chooseSplit chunk m = j := by
        unfold chooseSplit
        rw [hs1, hg2, hg3, hp4, hli]
      rw [hveq] at h
      have := lastIdx_max [' '] chunk (by simp) j hli i hi
      omega
  exact ⟨sentCandidate_none chunk m hs1, gapCandidate_none _ chunk m (by simp) hg2,
    gapCandidate_none _ chunk m (by simp) hg3, punctCandidate_none chunk m hp4, hsp⟩

/-- Every chunk produced by the split loop fits the limit. -/
theorem smartSplitGo_len (m : Nat) :
    ∀ (fuel : Nat) (r : List Char), ∀ c ∈ smartSplitGo m fuel r, c.length ≤ m := by
  intro fuel
  induction fuel with
  | zero => intro r c hc; simp [smartSplitGo] at hc
  | succ fuel ih =>
    intro r c hc
    match r with
    | [] => simp [smartSplitGo] at hc
    | a :: t =>
      rw [smartSplitGo] at hc
      by_cases hl : (a :: t).length ≤ m
      · rw [if_pos hl] at hc
        simp at hc
        subst hc
        exact hl
      · rw [if_neg hl] at hc
        dsimp only at hc
        rcases List.mem_cons.mp hc with rfl | hmem
        · have hkle : chooseSplit ((a :: t).take m) m ≤ m := by
            apply chooseSplit_le
            rw [List.length_take]
            exact Nat.min_le_left _ _
          calc (trim ((a :: t).take (chooseSplit ((a :: t).take m) m))).length
              ≤ ((a :: t).take (chooseSplit ((a :: t).take m) m)).length :=
                trim_length_le _
            _ ≤ chooseSplit ((a :: t).take m) m := by
                rw [List.length_take]
                exact Nat.min_le_left _ _
            _ ≤ m := hkle
        · exact ih _ c hmem
      simp

/-- Claim C7: every chunk smartSplit returns is at most 900 characters, chunks are non-empty
whenever the input is non-empty (the empty input returns the single empty chunk), and a split
point before half the limit is only chosen when no preferred boundary qualifies. -/
theorem smartSplit_bounds :
    (∀ (s : List Char), ∀ c ∈ smartSplit s 900, c.length ≤ 900)
    ∧ (∀ (s : List Char), s ≠ [] → ∀ c ∈ smartSplit s 900, c ≠ [])
    ∧ (∀ (chunk : List Char), 2 * chooseSplit chunk 900 < 900 →
        noQualifyingBoundary chunk 900) := by
  refine ⟨?_, ?_, fun chunk h => chooseSplit_early chunk 900 h⟩
  · intro s c hc
    unfold smartSplit at hc
    by_cases hl : s.length ≤ 900
    · rw [if_pos hl] at hc
      simp at hc
      subst hc
      exact hl
    · rw [if_neg hl] at hc
      exact smartSplitGo_len 900 _ s c (List.mem_filter.mp hc).1
  · intro s hs c hc
    unfold smartSplit at hc
    by_cases hl : s.length ≤ 900
    · rw [if_pos hl] at hc
      simp at hc
      subst hc
      exact hs
    · rw [if_neg hl] at hc
      have h2 := (List.mem_filter.mp hc).2
      simpa using h2

theorem smartSplit_bounds_witness :
    (∀ c ∈ smartSplit ("hello world".toList) 900, c.length ≤ 900)
    ∧ (∀ c ∈ smartSplit ("hello world".toList) 900, c ≠ [])
    ∧ 2 * chooseSplit ("aaa bbb".toList) 900 < 900
    ∧ noQualifyingBoundary ("aaa bbb".toList) 900 :=
  ⟨smartSplit_bounds.1 _, smartSplit_bounds.2.1 _ (by decide), by decide,
   smartSplit_bounds.2.2 _ (by decide)⟩

theorem smartSplit_empty_cex :
    smartSplit ([] : List Char) 900 = [[]]
    ∧ ∃ c ∈ smartSplit ([] : List Char) 900, c = [] :=
  ⟨rfl, ⟨[], by decide, rfl⟩⟩
